import Mathlib

/-!
# go-mcp: path sandbox, tool handlers, schema bridge and agent loop

A shallow embedding of the Go sources

* `internal/mcp/tools.go`  (`resolvePath`, `HandleReadFile`, `HandleSearchFiles`,
  `HandleListFiles`),
* `internal/llm/client.go` (`MCPToGeminiToolsSlice`, `convertSchema`, `mapToSchema`,
  `ExtractToolResult`, `ExtractFunctionCalls`, `ExtractText`),
* `cmd/client/main.go`     (the interactive loop of `main`),

followed by the properties established about them.

Conventions of the embedding.

* A Go `string` holding a path is a `List Char`; the separator `/` is a single byte that
  never occurs inside a multi-byte character, so splitting on it agrees with the byte view.
  Other strings (names, messages, file contents) are `String`.
* A Go pointer that may be `nil` is an `Option`; dereferencing `none` is the run-time panic
  `Panic.nilDereference`, reported through `Except`.
* The operating system (working directory, files, the `grep` child process) is the
  record `Env`; every handler also returns the list of operations it performed on it.
* The standard-library functions `filepath.Clean`, `filepath.Join`, `filepath.Abs`,
  `filepath.IsAbs`, `strings.HasPrefix` and `strings.TrimSpace` are modelled for a Unix
  target (separator `/`, no volume names). `Clean` follows the byte-scanning loop of the
  standard library; `Clean_eq_cleanElements` shows that it applies the documented rules
  element by element, and `Clean_go_test_table` replays the library's own test table.
-/

namespace GoMcp

/-! ## Standard library: paths -/

/-- The Go call `strings.Join(elems, "/")`. -/
def joinSlash : List (List Char) → List Char
  | [] => []
  | [s] => s
  | s :: t :: rest => s ++ '/' :: joinSlash (t :: rest)

/-- Whether a byte is not a path separator (`!os.IsPathSeparator(c)`). -/
def notSep (c : Char) : Bool := c ≠ '/'

/-- The inner loop `for out.w > dotdot && !os.IsPathSeparator(out.index(out.w)) { out.w-- }`
of `filepath.Clean`. The buffer is kept in reverse, last written byte first, so `out.w` is
its length; the first argument is the byte `out.index(out.w)` just cut off. -/
def backtrackLoop (dotdot : Nat) : Char → List Char → List Char
  | _, [] => []
  | c, c' :: before =>
    if (c' :: before).length > dotdot ∧ c ≠ '/' then backtrackLoop dotdot c' before
    else c' :: before

/-- The backtracking of a `..` element in `filepath.Clean`: `out.w--`, then the inner loop. -/
def backtrack (dotdot : Nat) (out : List Char) : List Char :=
  match out with
  | [] => []
  | last :: before => backtrackLoop dotdot last before

/-- The loop `for r < n` of `filepath.Clean`. `rest` is the unread input `path[r:]`, `out`
the output buffer in reverse (last written byte first, `out.w` its length), `dotdot` the
index where `..` must stop. The cases, in the order of the source: a separator (empty
element); a `.` element; a `..` element, which backtracks when `out.w > dotdot`, is
appended when the path is not rooted, and is dropped otherwise; a real element, copied
after a separator if one is needed. Every iteration reads at least one byte, and the
first argument bounds the number of iterations. -/
def cleanLoop (rooted : Bool) : Nat → List Char → List Char → Nat → List Char
  | 0, _, out, _ => out
  | fuel + 1, rest, out, dotdot =>
    match rest with
    | [] => out
    | c :: t =>
      if c = '/' then
        cleanLoop rooted fuel t out dotdot
      else if c = '.' ∧ (t = [] ∨ t.head? = some '/') then
        cleanLoop rooted fuel t out dotdot
      else if c = '.' ∧ t.head? = some '.' ∧ (t.tail = [] ∨ t.tail.head? = some '/') then
        if out.length > dotdot then
          cleanLoop rooted fuel t.tail (backtrack dotdot out) dotdot
        else if !rooted then
          let out1 := if out.length > 0 then '/' :: out else out
          cleanLoop rooted fuel t.tail ('.' :: '.' :: out1) (out1.length + 2)
        else cleanLoop rooted fuel t.tail out dotdot
      else
        let out1 :=
          if (rooted = true ∧ out.length ≠ 1) ∨ (rooted = false ∧ out.length ≠ 0) then '/' :: out
          else out
        cleanLoop rooted fuel (rest.dropWhile notSep) ((rest.takeWhile notSep).reverse ++ out1)
          dotdot

/-- The Go function `filepath.Clean` on Unix (no volume name), byte by byte as in the
standard library: the empty path gives `.`; a rooted path starts with the separator in the
buffer and `r, dotdot = 1, 1`; an empty buffer at the end gives `.`. The length of the
path bounds the iterations of the loop. -/
def Clean (path : List Char) : List Char :=
  if path = [] then ['.']
  else
    let rooted : Bool := path.head? = some '/'
    let out :=
      if rooted then cleanLoop true path.length path.tail ['/'] 1
      else cleanLoop false path.length path [] 0
    if out.length = 0 then ['.'] else out.reverse

/-- The Go function `filepath.IsAbs` on Unix: the path starts with the separator. -/
def IsAbs (path : List Char) : Bool := path.head? = some '/'

/-- The Go function `strings.HasPrefix`. -/
def HasPrefix (s pre : List Char) : Bool := pre.isPrefixOf s

/-- The Go function `filepath.Join` on Unix: leading empty arguments are ignored, the rest
is joined with the separator and cleaned; with no non-empty argument the result is empty. -/
def Join (elem : List (List Char)) : List Char :=
  match elem.dropWhile (fun e => e = []) with
  | [] => []
  | rest => Clean (joinSlash rest)

/-- The Go function `filepath.Abs` on Unix. `wd` is the outcome of `os.Getwd` (`none` when it
fails). The second component tells whether the returned `error` is non-nil. -/
def Abs (wd : Option (List Char)) (path : List Char) : List Char × Bool :=
  if IsAbs path then (Clean path, false)
  else match wd with
    | none => ([], true)
    | some d => (Join [d, path], false)

/-! ## `internal/mcp/tools.go` -/

/-- The constant `DataFolder`: base folder for all file operations. -/
def DataFolder : List Char := "data".toList

/-- The Go function `resolvePath`. The errors of both `filepath.Abs` calls are discarded, as in
the source. -/
def resolvePath (wd : Option (List Char)) (relativePath : List Char) :
    Except String (List Char) :=
  let cleanPath := Clean relativePath
  if cleanPath = [] ∨ cleanPath = ['.'] then
    .ok (Abs wd DataFolder).1
  else if HasPrefix cleanPath ['.', '.'] then
    .error "path cannot escape data folder"
  else
    let baseDir := (Abs wd DataFolder).1
    let resolvedPath := (Abs wd (Join [DataFolder, cleanPath])).1
    if !HasPrefix resolvedPath baseDir then
      .error "path cannot escape data folder"
    else .ok resolvedPath

/-- The operating system as seen by the tool handlers. -/
structure Env where
  /-- Outcome of `os.Getwd`. -/
  wd : Option (List Char)
  /-- Outcome of `os.ReadFile`: the content, or the error text. -/
  readFile : List Char → Except String String
  /-- Outcome of running `grep -r -n -I pattern path` with `CombinedOutput`: the combined
  output and, when the command did not exit with status 0, the error text. -/
  grep : String → List Char → String × Option String
  /-- Outcome of `os.ReadDir`: the entry names, or the error text. -/
  readDir : List Char → Except String (List String)
  /-- The visits `filepath.Walk` makes from a root, in order: each visited path with the
  error passed to the callback (`none` for a nil error). -/
  walk : List Char → List (List Char × Option String)
  /-- The Go function `filepath.Rel` (its error is discarded by the caller). -/
  rel : List Char → List Char → String

/-- An operation a handler performed on the operating system. -/
inductive FsOp where
  | readFile (path : List Char)
  | grep (pattern : String) (path : List Char)
  | readDir (path : List Char)
  | walk (path : List Char)
  deriving DecidableEq

/-- One item of `CallToolResult.Content`; only text items are produced and consumed. -/
inductive ContentItem where
  | text (text : String)
  | other
  deriving DecidableEq

/-- The SDK type `mcp.CallToolResult`. -/
structure CallToolResult where
  content : List ContentItem
  isError : Bool := false
  deriving DecidableEq

/-- What a tool handler gives back: the operations performed, the result, and the third
return value of the Go handler (`none` for a nil `error`). -/
structure HandlerReturn where
  ops : List FsOp
  result : CallToolResult
  err : Option String
  deriving DecidableEq

structure ReadFileArgs where
  path : List Char

structure SearchFilesArgs where
  pattern : String
  path : List Char

structure ListFilesArgs where
  path : List Char
  recursive : Bool

/-- The Go function `HandleReadFile`. -/
def HandleReadFile (env : Env) (args : ReadFileArgs) : HandlerReturn :=
  match resolvePath env.wd args.path with
  | .error err =>
    { ops := [], result := { content := [.text ("Error: " ++ err)], isError := true },
      err := none }
  | .ok resolvedPath =>
    match env.readFile resolvedPath with
    | .error err =>
      { ops := [.readFile resolvedPath],
        result := { content := [.text ("Error reading file: " ++ err)], isError := true },
        err := none }
    | .ok content =>
      { ops := [.readFile resolvedPath], result := { content := [.text content] },
        err := none }

/-- The Go function `HandleSearchFiles`. -/
def HandleSearchFiles (env : Env) (args : SearchFilesArgs) : HandlerReturn :=
  match resolvePath env.wd args.path with
  | .error err =>
    { ops := [], result := { content := [.text ("Error: " ++ err)], isError := true },
      err := none }
  | .ok resolvedPath =>
    match env.grep args.pattern resolvedPath with
    | (output, some _) =>
      if output.length = 0 then
        { ops := [.grep args.pattern resolvedPath],
          result := { content := [.text "No matches found"] }, err := none }
      else
        { ops := [.grep args.pattern resolvedPath],
          result := { content := [.text output] }, err := none }
    | (output, none) =>
      { ops := [.grep args.pattern resolvedPath],
        result := { content := [.text output] }, err := none }

/-- The callback loop of `filepath.Walk` in `HandleListFiles`: a visit with an error stops the
walk with that error, any other visit appends the path relative to the root. -/
def walkFiles (rel : List Char → List Char → String) (resolvedPath : List Char) :
    List (List Char × Option String) → List String → Except String (List String)
  | [], files => .ok files
  | (_, some err) :: _, _ => .error err
  | (p, none) :: rest, files => walkFiles rel resolvedPath rest (files ++ [rel resolvedPath p])

/-- The Go function `HandleListFiles`. -/
def HandleListFiles (env : Env) (args : ListFilesArgs) : HandlerReturn :=
  match resolvePath env.wd args.path with
  | .error err =>
    { ops := [], result := { content := [.text ("Error: " ++ err)], isError := true },
      err := none }
  | .ok resolvedPath =>
    if args.recursive then
      match walkFiles env.rel resolvedPath (env.walk resolvedPath) [] with
      | .error err =>
        { ops := [.walk resolvedPath],
          result := { content := [.text ("Error: " ++ err)], isError := true }, err := none }
      | .ok files =>
        { ops := [.walk resolvedPath],
          result := { content :=
            [.text ("Files in " ++ String.mk args.path ++ ":\n" ++ "\n".intercalate files)] },
          err := none }
    else
      match env.readDir resolvedPath with
      | .error err =>
        { ops := [.readDir resolvedPath],
          result := { content := [.text ("Error: " ++ err)], isError := true }, err := none }
      | .ok entries =>
        { ops := [.readDir resolvedPath],
          result := { content :=
            [.text ("Files in " ++ String.mk args.path ++ ":\n" ++ "\n".intercalate entries)] },
          err := none }

/-! ## Dynamic values (`any`, `map[string]any`, `[]any`) -/

mutual
/-- A Go value of type `any` as produced by decoding JSON; `null` is the nil interface. -/
inductive AnyVal where
  | null
  | bool (b : Bool)
  | num (n : Int)
  | str (s : String)
  | arr (xs : AnyList)
  | obj (m : AnyMap)
/-- A Go slice `[]any`. -/
inductive AnyList where
  | nil
  | cons (v : AnyVal) (tl : AnyList)
/-- A Go map `map[string]any`, as the list of its entries in iteration order. -/
inductive AnyMap where
  | nil
  | cons (k : String) (v : AnyVal) (tl : AnyMap)
end

/-- The map index expression `m[key]` with its `ok` flag. -/
def AnyMap.get? : AnyMap → String → Option AnyVal
  | .nil, _ => none
  | .cons k v tl, key => if k = key then some v else tl.get? key

def AnyMap.keys : AnyMap → List String
  | .nil => []
  | .cons k _ tl => k :: tl.keys

def AnyMap.entries : AnyMap → List (String × AnyVal)
  | .nil => []
  | .cons k v tl => (k, v) :: tl.entries

def AnyList.toList : AnyList → List AnyVal
  | .nil => []
  | .cons v tl => v :: tl.toList

/-! ## `internal/llm/client.go`: schema bridge -/

mutual
/-- The fields of `genai.Schema` the converter writes: `Type`, `Properties`, `Required`. -/
inductive Schema where
  | mk (type : String) (properties : SchemaMap) (required : List String)
/-- A Go map `map[string]*genai.Schema`, as the list of its entries. -/
inductive SchemaMap where
  | nil
  | cons (k : String) (v : Schema) (tl : SchemaMap)
end

def Schema.type : Schema → String
  | .mk t _ _ => t

def Schema.properties : Schema → SchemaMap
  | .mk _ p _ => p

def Schema.required : Schema → List String
  | .mk _ _ r => r

/-- The map assignment `m[key] = s`: an existing entry is overwritten, a new one is added. -/
def SchemaMap.insert : SchemaMap → String → Schema → SchemaMap
  | .nil, key, s => .cons key s .nil
  | .cons k v tl, key, s => if k = key then .cons k s tl else .cons k v (tl.insert key s)

def SchemaMap.get? : SchemaMap → String → Option Schema
  | .nil, _ => none
  | .cons k v tl, key => if k = key then some v else tl.get? key

def SchemaMap.keys : SchemaMap → List String
  | .nil => []
  | .cons k _ tl => k :: tl.keys

/-- The constant `genai.TypeObject`. -/
def TypeObject : String := "OBJECT"

/-- The `type` part of `mapToSchema`: the string under `"type"`, else the default. -/
def typeField (m : AnyMap) : String :=
  match m.get? "type" with
  | some (.str t) => t
  | _ => TypeObject

/-- The loop over `required` in `mapToSchema`: string entries are appended, others skipped. -/
def requiredStrings : AnyList → List String → List String
  | .nil, acc => acc
  | .cons r tl, acc =>
    match r with
    | .str rStr => requiredStrings tl (acc ++ [rStr])
    | _ => requiredStrings tl acc

/-- The `required` part of `mapToSchema`. -/
def requiredField (m : AnyMap) : List String :=
  match m.get? "required" with
  | some (.arr required) => requiredStrings required []
  | _ => []

mutual
/-- The `properties` part of `mapToSchema`: look up `m["properties"]` and, when it is a map,
convert its entries. -/
def propsField : AnyMap → SchemaMap
  | .nil => .nil
  | .cons k v tl =>
    if k = "properties" then
      match v with
      | .obj props => convertProps props .nil
      | _ => .nil
    else propsField tl
/-- The loop `for key, val := range props`: an entry whose value is a map is converted
recursively and stored under its key, any other entry is skipped. -/
def convertProps : AnyMap → SchemaMap → SchemaMap
  | .nil, acc => acc
  | .cons key val tl, acc =>
    match val with
    | .obj propMap =>
      convertProps tl
        (acc.insert key
          (Schema.mk (typeField propMap) (propsField propMap) (requiredField propMap)))
    | _ => convertProps tl acc
end

/-- The Go method `mapToSchema`. -/
def mapToSchema (m : AnyMap) : Schema :=
  Schema.mk (typeField m) (propsField m) (requiredField m)

/-- The Go method `convertSchema`: a map is converted, anything else (nil included) gives
the empty object schema. -/
def convertSchema (schema : AnyVal) : Schema :=
  match schema with
  | .obj s => mapToSchema s
  | _ => Schema.mk TypeObject .nil []

/-- A run-time panic of the Go program. -/
inductive Panic where
  | nilDereference
  deriving DecidableEq

/-- The fields of `mcp.Tool` read by the converter. -/
structure Tool where
  name : String
  description : String
  inputSchema : AnyVal

/-- The SDK type `genai.FunctionDeclaration`. -/
structure FunctionDeclaration where
  name : String
  description : String
  parameters : Schema

/-- The SDK type `genai.Tool`. -/
structure GeminiTool where
  functionDeclarations : List FunctionDeclaration

/-- The loop of `MCPToGeminiToolsSlice`; `tool.InputSchema` on a nil `*mcp.Tool` panics. -/
def toolsLoop : List (Option Tool) → List GeminiTool → Except Panic (List GeminiTool)
  | [], geminiTools => .ok geminiTools
  | none :: _, _ => .error .nilDereference
  | some tool :: rest, geminiTools =>
    toolsLoop rest
      (geminiTools ++
        [{ functionDeclarations :=
            [{ name := tool.name, description := tool.description,
               parameters := convertSchema tool.inputSchema }] }])

/-- The Go method `MCPToGeminiToolsSlice`. -/
def MCPToGeminiToolsSlice (tools : List (Option Tool)) : Except Panic (List GeminiTool) :=
  toolsLoop tools []

/-- The Go method `ExtractToolResult`: the concatenated text items; empty for a nil result. -/
def ExtractToolResult (result : Option CallToolResult) : String :=
  match result with
  | none => ""
  | some r =>
    r.content.foldl
      (fun text content =>
        match content with
        | .text t => text ++ t
        | .other => text)
      ""

/-! ## `internal/llm/client.go`: model responses -/

/-- The SDK type `genai.FunctionCall`; `args` is `none` for a nil map. -/
structure GenaiFunctionCall where
  name : String
  args : Option AnyMap

/-- The SDK type `genai.FunctionResponse`. -/
structure FunctionResponse where
  name : String
  response : AnyMap

/-- The fields of `genai.Part` used by the program. -/
structure Part where
  text : String := ""
  functionCall : Option GenaiFunctionCall := none
  functionResponse : Option FunctionResponse := none

/-- The SDK type `genai.Content`; `Parts` is a slice of pointers. -/
structure Content where
  role : String
  parts : List (Option Part)

/-- The SDK type `genai.Candidate`. -/
structure Candidate where
  content : Option Content

/-- The SDK type `genai.GenerateContentResponse`; `Candidates` is a slice of pointers. -/
structure GenerateContentResponse where
  candidates : List (Option Candidate)

/-- The type `llm.FunctionCall`. -/
structure FunctionCall where
  name : String
  arguments : AnyMap

/-- The round trip `json.Marshal` then `json.Unmarshal` on a `map[string]any`, idealised
as the identity: a mapping made of JSON values decodes to a mapping with the same keys
and structure. Not represented: numbers come back as `float64` (an integer beyond 2^53 is
rounded), and a value `json.Marshal` rejects leaves the map empty. Only the argument
values of a call depend on this. -/
def jsonRoundTrip (args : AnyMap) : AnyMap := args

/-- The arguments built for one function call: an empty map, filled by the JSON round trip
when `Args` is not nil. -/
def callArguments (fc : GenaiFunctionCall) : AnyMap :=
  match fc.args with
  | some a => jsonRoundTrip a
  | none => .nil

/-- The inner loop of `ExtractFunctionCalls` over the parts of one candidate. -/
def callsOfParts : List (Option Part) → List FunctionCall → Except Panic (List FunctionCall)
  | [], calls => .ok calls
  | none :: _, _ => .error .nilDereference
  | some part :: rest, calls =>
    match part.functionCall with
    | some fc => callsOfParts rest (calls ++ [{ name := fc.name, arguments := callArguments fc }])
    | none => callsOfParts rest calls

/-- The outer loop of `ExtractFunctionCalls` over the candidates. -/
def callsOfCandidates :
    List (Option Candidate) → List FunctionCall → Except Panic (List FunctionCall)
  | [], calls => .ok calls
  | none :: _, _ => .error .nilDereference
  | some candidate :: rest, calls =>
    match candidate.content with
    | none => callsOfCandidates rest calls
    | some content =>
      match callsOfParts content.parts calls with
      | .error e => .error e
      | .ok calls' => callsOfCandidates rest calls'

/-- The Go function `ExtractFunctionCalls`; `resp.Candidates` on a nil response panics. -/
def ExtractFunctionCalls (resp : Option GenerateContentResponse) :
    Except Panic (List FunctionCall) :=
  match resp with
  | none => .error .nilDereference
  | some r => callsOfCandidates r.candidates []

/-- The inner loop of `ExtractText`. -/
def textOfParts : List (Option Part) → String → Except Panic String
  | [], text => .ok text
  | none :: _, _ => .error .nilDereference
  | some part :: rest, text =>
    if part.text ≠ "" then textOfParts rest (text ++ part.text)
    else textOfParts rest text

/-- The outer loop of `ExtractText`. -/
def textOfCandidates : List (Option Candidate) → String → Except Panic String
  | [], text => .ok text
  | none :: _, _ => .error .nilDereference
  | some candidate :: rest, text =>
    match candidate.content with
    | none => textOfCandidates rest text
    | some content =>
      match textOfParts content.parts text with
      | .error e => .error e
      | .ok text' => textOfCandidates rest text'

/-- The Go function `ExtractText`. -/
def ExtractText (resp : Option GenerateContentResponse) : Except Panic String :=
  match resp with
  | none => .error .nilDereference
  | some r => textOfCandidates r.candidates ""

/-! ## `cmd/client/main.go`: the interactive loop -/

/-- The Go function `unicode.IsSpace`: the characters with the Unicode White_Space property. -/
def isSpace (c : Char) : Bool :=
  let n := c.toNat
  (9 ≤ n ∧ n ≤ 13) ∨ n = 32 ∨ n = 0x85 ∨ n = 0xA0 ∨ n = 0x1680 ∨
    (0x2000 ≤ n ∧ n ≤ 0x200A) ∨ n = 0x2028 ∨ n = 0x2029 ∨ n = 0x202F ∨ n = 0x205F ∨
    n = 0x3000

/-- The Go function `strings.TrimSpace`. -/
def TrimSpace (s : String) : String :=
  String.mk ((s.data.dropWhile isSpace).reverse.dropWhile isSpace).reverse

/-- The history entry for a user query (lines 115-118). -/
def userTextTurn (query : String) : Content :=
  { role := "user", parts := [some { text := query }] }

/-- The history entry holding the function call (lines 147-157). -/
def functionCallTurn (fc : FunctionCall) : Content :=
  { role := "model",
    parts := [some { functionCall := some { name := fc.name, args := some fc.arguments } }] }

/-- The history entry holding the tool output under the key `result` (lines 159-171). -/
def functionResultTurn (fc : FunctionCall) (toolResultText : String) : Content :=
  let functionResponse : FunctionResponse :=
    { name := fc.name, response := .cons "result" (.str toolResultText) .nil }
  { role := "user", parts := [some { functionResponse := some functionResponse }] }

/-- The history entry for the final answer (lines 189-192). -/
def modelTextTurn (responseText : String) : Content :=
  { role := "model", parts := [some { text := responseText }] }

/-- What the loop does to the outside world, in order: a model query with the history
sent, a tool invocation, the answer text printed. Prompts, tool notices and error messages
are not recorded. -/
inductive Action where
  | queryModel (history : List Content)
  | callTool (name : String) (arguments : AnyMap)
  | display (responseText : String)

/-- Where `main` is blocked, waiting for the outside world. -/
inductive Pc where
  /-- In `reader.ReadString` (line 98). -/
  | awaitInput
  /-- In the first `GenerateContentWithSystemPrompt` of a query (line 121). -/
  | awaitFirstGenerate
  /-- In `session.CallTool` for `functionCalls[0]` (line 134); `resp` and `functionCalls`
  are the local variables of the same name, the latter split into its first entry and
  the rest. -/
  | awaitTool (resp : Option GenerateContentResponse) (first : FunctionCall)
      (others : List FunctionCall)
  /-- In `GenerateContentWithSystemPrompt` inside the tool loop (line 174). -/
  | awaitGenerate
  /-- After `break` on `quit` or `exit`. -/
  | exited
  /-- Stopped by a run-time panic. -/
  | panicked

/-- What the outside world hands back; `err` tells whether the returned `error` is non-nil. -/
inductive Event where
  | line (text : String) (err : Bool)
  | generated (resp : Option GenerateContentResponse) (err : Bool)
  | toolReturned (toolResp : Option CallToolResult) (err : Bool)

/-- The state of `main` inside its loop: the variable `history`, the point of control and
the actions performed so far. -/
structure LoopState where
  history : List Content
  pc : Pc
  trace : List Action

/-- Lines 183-194: extract the final text, print it and record it when non-empty, then
prompt again. -/
def finishQuery (st : LoopState) (resp : Option GenerateContentResponse) : LoopState :=
  match ExtractText resp with
  | .error _ => { st with pc := .panicked }
  | .ok responseText =>
    if responseText ≠ "" then
      { history := st.history ++ [modelTextTurn responseText],
        pc := .awaitInput,
        trace := st.trace ++ [.display responseText] }
    else { st with pc := .awaitInput }

/-- The head of `for len(functionCalls) > 0` (line 130): with a call pending, invoke the
tool for `functionCalls[0]`; otherwise leave the loop. -/
def toolLoopHead (st : LoopState) (resp : Option GenerateContentResponse)
    (functionCalls : List FunctionCall) : LoopState :=
  match functionCalls with
  | first :: others =>
    { st with pc := .awaitTool resp first others,
              trace := st.trace ++ [.callTool first.name first.arguments] }
  | [] => finishQuery st resp

/-- One step of `main`: the program is blocked at `st.pc`, the outside world answers with
`ev`, and the program runs to its next blocking point. An event that does not answer the
pending call leaves the state unchanged. -/
def step (st : LoopState) (ev : Event) : LoopState :=
  match st.pc, ev with
  | .awaitInput, .line text err =>
    if err then st
    else
      let query := TrimSpace text
      if query = "" then st
      else if query = "quit" ∨ query = "exit" then { st with pc := .exited }
      else
        { history := st.history ++ [userTextTurn query],
          pc := .awaitFirstGenerate,
          trace := st.trace ++ [.queryModel (st.history ++ [userTextTurn query])] }
  | .awaitFirstGenerate, .generated resp err =>
    if err then { st with pc := .awaitInput }
    else
      match ExtractFunctionCalls resp with
      | .error _ => { st with pc := .panicked }
      | .ok functionCalls => toolLoopHead st resp functionCalls
  | .awaitTool resp first _, .toolReturned toolResp err =>
    if err then finishQuery st resp
    else
      let toolResultText := ExtractToolResult toolResp
      let history :=
        st.history ++ [functionCallTurn first, functionResultTurn first toolResultText]
      { history := history, pc := .awaitGenerate, trace := st.trace ++ [.queryModel history] }
  | .awaitGenerate, .generated resp err =>
    if err then finishQuery st resp
    else
      match ExtractFunctionCalls resp with
      | .error _ => { st with pc := .panicked }
      | .ok functionCalls => toolLoopHead st resp functionCalls
  | _, _ => st

/-- The state when the loop is entered: empty history, waiting for the first line. -/
def initialState : LoopState := { history := [], pc := .awaitInput, trace := [] }

/-- Run `main` from a state against the answers of the outside world. -/
def run (st : LoopState) (events : List Event) : LoopState :=
  events.foldl step st

/-- Whether a history entry holds a function-call part. -/
def holdsFunctionCall (c : Content) : Bool :=
  c.parts.any fun p =>
    match p with
    | some part => part.functionCall.isSome
    | none => false

/-- Whether a history entry holds a function-result part for the given name. -/
def holdsFunctionResult (name : String) (c : Content) : Bool :=
  c.parts.any fun p =>
    match p with
    | some part =>
      match part.functionResponse with
      | some fr => fr.name = name
      | none => false
    | none => false

/-- Whether `next` is a user entry holding a function result for every function call
that `c` holds. -/
def answeredBy (c next : Content) : Bool :=
  next.role = "user" ∧
    c.parts.all fun p =>
      match p with
      | some part =>
        match part.functionCall with
        | some fc => holdsFunctionResult fc.name next
        | none => true
      | none => true

/-- The pairing invariant of a history: every entry holding a function call is immediately
followed by a user entry holding the function result for the same name. -/
def Paired : List Content → Bool
  | [] => true
  | [c] => !holdsFunctionCall c
  | c :: next :: rest => (!holdsFunctionCall c || answeredBy c next) && Paired (next :: rest)

/-! ## Notions used to state the properties -/

/-- The elements of a path: the pieces between consecutive separators (`strings.Split(p, "/")`);
the empty path has the single empty element. -/
def splitSlash : List Char → List (List Char)
  | [] => [[]]
  | c :: cs =>
    if c = '/' then [] :: splitSlash cs
    else match splitSlash cs with
      | [] => [[c]]
      | s :: ss => (c :: s) :: ss

/-- What the scanning loop of `filepath.Clean` does with a whole path element.
`out` is the output as a stack of elements, last written first.
An empty element and `.` are skipped. For `..`: if the buffer ends in a genuine element
(`out.w > dotdot`) that element is removed; otherwise a rooted path drops the `..` and an
unrooted path appends it. Any other element is appended. -/
def cleanStep (rooted : Bool) (out : List (List Char)) (seg : List Char) : List (List Char) :=
  if seg = [] then out
  else if seg = ['.'] then out
  else if seg = ['.', '.'] then
    match out with
    | top :: below =>
      if top = ['.', '.'] then (if rooted then out else seg :: out) else below
    | [] => if rooted then [] else [seg]
  else seg :: out

/-- The rules of `filepath.Clean` applied element by element: collapse repeated separators,
drop `.` elements, resolve inner `..` elements against the element before them, drop `..`
at the start of a rooted path; the empty result is `.`. -/
def cleanElements (path : List Char) : List Char :=
  let rooted : Bool := path.head? = some '/'
  let out := (splitSlash path).foldl (cleanStep rooted) []
  if rooted then '/' :: joinSlash out.reverse
  else if out = [] then ['.'] else joinSlash out.reverse

/-- The output buffer (in writing order) that holds a stack of elements. -/
def fwdBuf (rooted : Bool) (stack : List (List Char)) : List Char :=
  (if rooted then ['/'] else []) ++ joinSlash stack.reverse

/-- A genuine path element: not empty, not `.`, not `..`, and free of separators. -/
def RealSeg (s : List Char) : Prop := s ≠ [] ∧ s ≠ ['.'] ∧ s ≠ ['.', '.'] ∧ '/' ∉ s

/-- Shape of the output buffer of `Clean`, last written first: genuine elements above a
run of `..` elements. -/
def OutShape (out : List (List Char)) : Prop :=
  ∃ (k : Nat) (reals : List (List Char)),
    out = reals ++ List.replicate k ['.', '.'] ∧ ∀ s ∈ reals, RealSeg s

/-- The cleaned elements of a working directory, in path order. -/
def wdSegs (cwd : List Char) : List (List Char) :=
  ((splitSlash cwd).foldl (cleanStep true) []).reverse

/-- The parts of a response in encounter order: candidates in order, and within each
candidate that has content its parts in order. -/
def partsInOrder : List (Option Candidate) → List Part
  | [] => []
  | none :: rest => partsInOrder rest
  | some candidate :: rest =>
    (match candidate.content with
      | some content => content.parts.filterMap id
      | none => []) ++ partsInOrder rest

/-- The function calls carried by the parts of a response, in encounter order. -/
def functionCallParts (r : GenerateContentResponse) : List GenaiFunctionCall :=
  (partsInOrder r.candidates).filterMap fun part => part.functionCall

/-- A response without nil pointers among its candidates and their parts. -/
def noNilPointers (r : GenerateContentResponse) : Bool :=
  r.candidates.all fun c =>
    match c with
    | none => false
    | some candidate =>
      match candidate.content with
      | none => true
      | some content => content.parts.all Option.isSome

/-- The property map of a raw schema object: the map under `"properties"`, empty when the
key is absent or not a map. -/
def inputProperties (m : AnyMap) : AnyMap :=
  match m.get? "properties" with
  | some (.obj props) => props
  | _ => .nil

/-- The required list of a raw schema object: the array under `"required"`, empty when the
key is absent or not an array. -/
def inputRequired (m : AnyMap) : AnyList :=
  match m.get? "required" with
  | some (.arr required) => required
  | _ => .nil

/-- A tree-shaped parameter schema: at every level the property names are distinct (it is
a map), every property is itself such a schema object, and every required entry is a
name. -/
inductive SchemaTree : AnyMap → Prop where
  | node (m : AnyMap)
      (distinct : (inputProperties m).keys.Nodup)
      (objects : ∀ k v, (k, v) ∈ (inputProperties m).entries → ∃ pm, v = AnyVal.obj pm)
      (nested : ∀ k pm, (k, AnyVal.obj pm) ∈ (inputProperties m).entries → SchemaTree pm)
      (names : ∀ v ∈ (inputRequired m).toList, ∃ r, v = AnyVal.str r) :
      SchemaTree m

/-- The translated schema `s` has, at every nesting level, the property names and the
required names of the raw schema `m`. -/
inductive SameNames : AnyMap → Schema → Prop where
  | node (m : AnyMap) (s : Schema)
      (properties : ∀ k, k ∈ s.properties.keys ↔ k ∈ (inputProperties m).keys)
      (required : s.required.map AnyVal.str = (inputRequired m).toList)
      (nested : ∀ k pm sub, (inputProperties m).get? k = some (AnyVal.obj pm) →
        s.properties.get? k = some sub → SameNames pm sub) :
      SameNames m s

/-- The call built by `ExtractFunctionCalls` from a function-call part. -/
def toCall (fc : GenaiFunctionCall) : FunctionCall :=
  { name := fc.name, arguments := callArguments fc }

/-! ## Sample data -/

/-- A sample operating system: working directory `/srv/app`, one readable file. -/
def sampleEnv : Env where
  wd := some "/srv/app".toList
  readFile := fun p =>
    if p = "/srv/app/data/team.json".toList then .ok "[]" else .error "no such file or directory"
  grep := fun _ _ => ("", some "exit status 1")
  readDir := fun _ => .ok ["team.json"]
  walk := fun p => [(p, none)]
  rel := fun _ _ => "."

/-- The sample operating system with a `grep` that fails on a malformed pattern: exit
status 2 and a diagnostic on the combined output. -/
def badPatternEnv : Env :=
  { sampleEnv with
    grep := fun _ _ => ("grep: Unmatched [, [^, [:, [., or [=\n", some "exit status 2") }

/-- A response whose only candidate holds a nil part. -/
def nilPartResponse : GenerateContentResponse :=
  { candidates := [some { content := some { role := "model", parts := [none] } }] }

/-- A response with two candidates: text and a call in the first, a call in the second. -/
def twoCallResponse : GenerateContentResponse :=
  { candidates :=
      [some { content := some { role := "model", parts :=
          [some { text := "looking" },
           some { functionCall := some { name := "list_files", args := none } }] } },
       some { content := none },
       some { content := some { role := "model", parts :=
          [some { functionCall := some { name := "read_file", args := none } }] } }] }

/-- A tool result with one text item. -/
def sampleToolResult : CallToolResult := { content := [.text "Files in :\na.txt"] }

/-- A response holding only text. -/
def textResponse : GenerateContentResponse :=
  { candidates := [some { content := some { role := "model", parts :=
      [some { text := "There is one file." }] } }] }

/-- A response holding the single call `read_file`. -/
def oneCallResponse : GenerateContentResponse :=
  { candidates := [some { content := some { role := "model", parts :=
      [some { functionCall := some { name := "read_file", args := none } }] } }] }

/-- The state of the loop after the line `list`, waiting for the first response. -/
def afterListLine : LoopState :=
  { history := [{ role := "user", parts := [some { text := "list" }] }],
    pc := .awaitFirstGenerate,
    trace := [] }

/-- The schema `{"type": "boolean"}`. -/
def booleanSchema : AnyMap := .cons "type" (.str "boolean") .nil

/-- The schema `{"type": "string"}`. -/
def stringSchema : AnyMap := .cons "type" (.str "string") .nil

/-- An object schema with the property `recursive`, which is required. -/
def optionsSchema : AnyMap :=
  .cons "type" (.str "object")
    (.cons "properties" (.obj (.cons "recursive" (.obj booleanSchema) .nil))
      (.cons "required" (.arr (.cons (.str "recursive") .nil)) .nil))

/-- A parameter schema with the properties `path` and `options`, the latter a nested
object; `path` is required. -/
def sampleSchema : AnyMap :=
  .cons "type" (.str "object")
    (.cons "properties"
        (.obj (.cons "path" (.obj stringSchema) (.cons "options" (.obj optionsSchema) .nil)))
      (.cons "required" (.arr (.cons (.str "path") .nil)) .nil))

/-- The sample schema with one more property, `extra`, whose schema is the boolean schema
`true` (legal in JSON Schema: any value is accepted). -/
def looseSchema : AnyMap :=
  .cons "type" (.str "object")
    (.cons "properties"
        (.obj (.cons "path" (.obj stringSchema)
          (.cons "options" (.obj optionsSchema) (.cons "extra" (.bool true) .nil))))
      (.cons "required" (.arr (.cons (.str "path") .nil)) .nil))

/-! # Properties -/

/-! ## Path sandbox -/

/-- The model of `filepath.Clean` agrees with the table of the Go standard library's own
test (`cleantests` and its Unix additions in `path/filepath/path_test.go`). -/
theorem Clean_go_test_table :
    ([("abc", "abc"), ("abc/def", "abc/def"), ("a/b/c", "a/b/c"), (".", "."), ("..", ".."),
      ("../..", "../.."), ("../../abc", "../../abc"), ("/abc", "/abc"), ("/", "/"),
      ("", "."),
      ("abc/", "abc"), ("abc/def/", "abc/def"), ("a/b/c/", "a/b/c"), ("./", "."),
      ("../", ".."), ("../../", "../.."), ("/abc/", "/abc"),
      ("abc//def//ghi", "abc/def/ghi"), ("abc//", "abc"),
      ("abc/./def", "abc/def"), ("/./abc/def", "/abc/def"), ("abc/.", "abc"),
      ("abc/def/ghi/../jkl", "abc/def/jkl"), ("abc/def/../ghi/../jkl", "abc/jkl"),
      ("abc/def/..", "abc"), ("abc/def/../..", "."), ("/abc/def/../..", "/"),
      ("abc/def/../../..", ".."), ("/abc/def/../../..", "/"),
      ("abc/def/../../../ghi/jkl/../../../mno", "../../mno"), ("/../abc", "/abc"),
      ("a/../b:/../../c", "../c"),
      ("abc/./../def", "def"), ("abc//./../def", "def"),
      ("abc/../../././../def", "../../def"),
      ("//abc", "/abc"), ("///abc", "/abc"), ("//abc//", "/abc")] :
        List (String × String)).all
      (fun t => Clean t.1.toList = t.2.toList) = true := by
  decide

theorem splitSlash_ne_nil (s : List Char) : splitSlash s ≠ [] := by
  cases s with
  | nil => simp [splitSlash]
  | cons c cs =>
    unfold splitSlash
    split
    · simp
    · split <;> simp

theorem splitSlash_noslash (s : List Char) : ∀ seg ∈ splitSlash s, '/' ∉ seg := by
  induction s with
  | nil => simp [splitSlash]
  | cons c cs ih =>
    unfold splitSlash
    split
    · intro seg hseg
      rcases List.mem_cons.1 hseg with h | h
      · subst h; simp
      · exact ih seg h
    · rename_i hc
      split
      · intro seg hseg
        simp at hseg; subst hseg; simpa using fun h => hc h.symm
      · rename_i s ss heq
        intro seg hseg
        rw [heq] at ih
        rcases List.mem_cons.1 hseg with h | h
        · subst h
          have := ih s (by simp)
          simp only [List.mem_cons, not_or]
          exact ⟨fun h => hc h.symm, this⟩
        · exact ih seg (by simp [h])

theorem splitSlash_cons_slash (cs : List Char) :
    splitSlash ('/' :: cs) = [] :: splitSlash cs := by
  simp [splitSlash]

theorem splitSlash_cons_other (c : Char) (cs s : List Char) (ss : List (List Char))
    (hc : c ≠ '/') (h : splitSlash cs = s :: ss) :
    splitSlash (c :: cs) = (c :: s) :: ss := by
  simp [splitSlash, hc, h]

theorem splitSlash_append (a b : List Char) :
    splitSlash (a ++ '/' :: b) = splitSlash a ++ splitSlash b := by
  induction a with
  | nil => simp [splitSlash]
  | cons c cs ih =>
    simp only [List.cons_append]
    by_cases hc : c = '/'
    · subst hc
      simp [splitSlash_cons_slash, ih]
    · cases h : splitSlash cs with
      | nil => exact absurd h (splitSlash_ne_nil cs)
      | cons s ss =>
        rw [splitSlash_cons_other c cs s ss hc h,
          splitSlash_cons_other c _ s (ss ++ splitSlash b) hc (by rw [ih, h]; rfl)]
        rfl

theorem splitSlash_of_noslash (s : List Char) (h : '/' ∉ s) : splitSlash s = [s] := by
  induction s with
  | nil => simp [splitSlash]
  | cons c cs ih =>
    simp only [List.mem_cons, not_or] at h
    unfold splitSlash
    rw [if_neg (fun hc => h.1 hc.symm), ih h.2]

theorem splitSlash_joinSlash (segs : List (List Char)) (hne : segs ≠ [])
    (h : ∀ s ∈ segs, '/' ∉ s) : splitSlash (joinSlash segs) = segs := by
  induction segs with
  | nil => exact absurd rfl hne
  | cons s rest ih =>
    cases rest with
    | nil => simpa [joinSlash] using splitSlash_of_noslash s (h s (by simp))
    | cons t rest' =>
      simp only [joinSlash]
      rw [splitSlash_append, splitSlash_of_noslash s (h s (by simp)),
        ih (by simp) (fun x hx => h x (by simp [hx]))]
      simp

theorem joinSlash_append (a b : List (List Char)) (ha : a ≠ []) (hb : b ≠ []) :
    joinSlash (a ++ b) = joinSlash a ++ '/' :: joinSlash b := by
  induction a with
  | nil => exact absurd rfl ha
  | cons s rest ih =>
    cases rest with
    | nil =>
      cases b with
      | nil => exact absurd rfl hb
      | cons t b' => simp [joinSlash]
    | cons t rest' =>
      have := ih (by simp)
      simp only [List.cons_append] at this ⊢
      simp [joinSlash, this]

theorem cleanStep_real (rooted : Bool) (out : List (List Char)) (seg : List Char)
    (h : RealSeg seg) : cleanStep rooted out seg = seg :: out := by
  simp [cleanStep, h.1, h.2.1, h.2.2.1]

theorem foldl_cleanStep_real (rooted : Bool) (segs out : List (List Char))
    (h : ∀ s ∈ segs, RealSeg s) :
    segs.foldl (cleanStep rooted) out = segs.reverse ++ out := by
  induction segs generalizing out with
  | nil => simp
  | cons s rest ih =>
    simp only [List.foldl_cons, List.reverse_cons, List.append_assoc, List.singleton_append]
    rw [cleanStep_real rooted out s (h s (by simp)), ih _ (fun x hx => h x (by simp [hx]))]

theorem cleanStep_rooted_real (out : List (List Char)) (seg : List Char)
    (hseg : '/' ∉ seg) (hout : ∀ s ∈ out, RealSeg s) :
    ∀ s ∈ cleanStep true out seg, RealSeg s := by
  unfold cleanStep
  split
  · exact hout
  · split
    · exact hout
    · split
      · cases out with
        | nil => simp
        | cons top below =>
          have htop := (hout top (by simp)).2.2.1
          simp only [htop, if_false]
          exact fun s hs => hout s (by simp [hs])
      · rename_i h1 h2 h3
        intro s hs
        rcases List.mem_cons.1 hs with h | h
        · subst h; exact ⟨h1, h2, h3, hseg⟩
        · exact hout s h

theorem foldl_cleanStep_rooted_real (segs out : List (List Char))
    (hsegs : ∀ s ∈ segs, '/' ∉ s) (hout : ∀ s ∈ out, RealSeg s) :
    ∀ s ∈ segs.foldl (cleanStep true) out, RealSeg s := by
  induction segs generalizing out with
  | nil => simpa using hout
  | cons s rest ih =>
    simp only [List.foldl_cons]
    exact ih _ (fun x hx => hsegs x (by simp [hx]))
      (cleanStep_rooted_real out s (hsegs s (by simp)) hout)

theorem cleanStep_outShape (out : List (List Char)) (seg : List Char)
    (hseg : '/' ∉ seg) (hout : OutShape out) : OutShape (cleanStep false out seg) := by
  obtain ⟨k, reals, rfl, hreals⟩ := hout
  unfold cleanStep
  split
  · exact ⟨k, reals, rfl, hreals⟩
  · split
    · exact ⟨k, reals, rfl, hreals⟩
    · split
      · rename_i hdd
        cases reals with
        | nil =>
          cases k with
          | zero => exact ⟨1, [], by simp [hdd], by simp⟩
          | succ n =>
            refine ⟨n + 2, [], ?_, by simp⟩
            simp [hdd, List.replicate_succ]
        | cons top below =>
          have htop := (hreals top (by simp)).2.2.1
          simp only [List.cons_append, htop, if_false]
          exact ⟨k, below, rfl, fun s hs => hreals s (by simp [hs])⟩
      · rename_i h1 h2 h3
        refine ⟨k, seg :: reals, by simp, ?_⟩
        intro s hs
        rcases List.mem_cons.1 hs with h | h
        · subst h; exact ⟨h1, h2, h3, hseg⟩
        · exact hreals s h

theorem foldl_cleanStep_outShape (segs out : List (List Char))
    (hsegs : ∀ s ∈ segs, '/' ∉ s) (hout : OutShape out) :
    OutShape (segs.foldl (cleanStep false) out) := by
  induction segs generalizing out with
  | nil => simpa using hout
  | cons s rest ih =>
    simp only [List.foldl_cons]
    exact ih _ (fun x hx => hsegs x (by simp [hx]))
      (cleanStep_outShape out s (hsegs s (by simp)) hout)

theorem cleanStep_nil (rooted : Bool) (out : List (List Char)) :
    cleanStep rooted out [] = out := by
  simp [cleanStep]

theorem cleanLoop_nil (rooted : Bool) (fuel : Nat) (out : List Char) (dotdot : Nat) :
    cleanLoop rooted fuel [] out dotdot = out := by
  cases fuel <;> rfl

theorem joinSlash_snoc (L : List (List Char)) (seg : List Char) :
    joinSlash (L ++ [seg]) = if L = [] then seg else joinSlash L ++ '/' :: seg := by
  by_cases h : L = []
  · subst h; simp [joinSlash]
  · rw [if_neg h, joinSlash_append L [seg] h (by simp)]
    simp [joinSlash]

theorem joinSlash_eq_nil (L : List (List Char)) (h : ∀ s ∈ L, s ≠ []) :
    joinSlash L = [] ↔ L = [] := by
  cases L with
  | nil => simp [joinSlash]
  | cons s rest =>
    cases rest with
    | nil => simpa [joinSlash] using h s (by simp)
    | cons t more => simp [joinSlash]

theorem fwdBuf_cons (rooted : Bool) (stack : List (List Char)) (seg : List Char) :
    fwdBuf rooted (seg :: stack) =
      if stack = [] then fwdBuf rooted [] ++ seg else fwdBuf rooted stack ++ '/' :: seg := by
  unfold fwdBuf
  rw [List.reverse_cons, joinSlash_snoc]
  by_cases h : stack = []
  · subst h; simp [joinSlash]
  · have : stack.reverse ≠ [] := by simpa using h
    simp [h, this]

theorem length_fwdBuf_nil (rooted : Bool) :
    (fwdBuf rooted []).length = if rooted then 1 else 0 := by
  cases rooted <;> simp [fwdBuf, joinSlash]

theorem length_fwdBuf_cons (rooted : Bool) (stack : List (List Char)) (seg : List Char)
    (hseg : seg ≠ []) : (fwdBuf rooted stack).length < (fwdBuf rooted (seg :: stack)).length := by
  rw [fwdBuf_cons]
  have hpos : 0 < seg.length := List.length_pos.2 hseg
  by_cases h : stack = []
  · subst h; simp; omega
  · simp [h]

/-- The separator test of the default case: the buffer holds more than the root. -/
theorem sep_needed_iff (rooted : Bool) (stack : List (List Char))
    (hne : ∀ s ∈ stack, s ≠ []) :
    ((rooted = true ∧ (fwdBuf rooted stack).reverse.length ≠ 1) ∨
        (rooted = false ∧ (fwdBuf rooted stack).reverse.length ≠ 0)) ↔ stack ≠ [] := by
  have hj : joinSlash stack.reverse = [] ↔ stack = [] := by
    rw [joinSlash_eq_nil _ (fun s hs => hne s (List.mem_reverse.1 hs))]
    simp
  cases rooted
  · simp [fwdBuf, hj]
  · simp [fwdBuf, hj]

theorem foldl_cleanStep_takeWhile (rooted : Bool) (rest : List Char)
    (stack : List (List Char)) :
    (splitSlash rest).foldl (cleanStep rooted) stack =
      (splitSlash (rest.dropWhile notSep)).foldl (cleanStep rooted)
        (cleanStep rooted stack (rest.takeWhile notSep)) := by
  have hfree : '/' ∉ rest.takeWhile notSep := by
    intro hmem
    have := List.mem_takeWhile_imp hmem
    simp [notSep] at this
  cases hd : rest.dropWhile notSep with
  | nil =>
    have hall : rest.takeWhile notSep = rest := by
      have := List.takeWhile_append_dropWhile notSep rest
      rw [hd, List.append_nil] at this
      exact this
    rw [hall] at hfree ⊢
    rw [splitSlash_of_noslash rest hfree]
    simp [splitSlash, cleanStep_nil]
  | cons c t =>
    have hc : c = '/' := by
      have := List.head_dropWhile_not notSep rest (by rw [hd]; simp)
      simp only [hd, List.head_cons] at this
      simpa [notSep] using this
    subst hc
    have hsplit : rest = rest.takeWhile notSep ++ '/' :: t := by
      have := List.takeWhile_append_dropWhile notSep rest
      rw [hd] at this
      exact this.symm
    conv_lhs => rw [hsplit]
    rw [splitSlash_append, splitSlash_of_noslash _ hfree, splitSlash_cons_slash]
    simp [cleanStep_nil]


theorem backtrackLoop_cons (dotdot : Nat) (c c' : Char) (before : List Char) :
    backtrackLoop dotdot c (c' :: before) =
      if (c' :: before).length > dotdot ∧ c ≠ '/' then backtrackLoop dotdot c' before
      else c' :: before := by
  simp [backtrackLoop]

theorem backtrackLoop_sep (dotdot : Nat) (base : List Char) :
    backtrackLoop dotdot '/' base = base := by
  cases base with
  | nil => rfl
  | cons b bs => rw [backtrackLoop_cons, if_neg (by simp)]

theorem backtrackLoop_segment (dotdot : Nat) (base : List Char) (hdd : dotdot ≤ base.length) :
    ∀ (seg : List Char) (c : Char), c ≠ '/' → (∀ x ∈ seg, x ≠ '/') →
      backtrackLoop dotdot c (seg ++ '/' :: base) = base := by
  intro seg
  induction seg with
  | nil =>
    intro c hc _
    have h1 : ('/' :: base).length > dotdot := by
      simp only [List.length_cons]; omega
    rw [List.nil_append, backtrackLoop_cons, if_pos ⟨h1, hc⟩, backtrackLoop_sep]
  | cons x xs ih =>
    intro c hc hseg
    have h1 : (x :: (xs ++ '/' :: base)).length > dotdot := by
      simp only [List.length_cons, List.length_append]; omega
    rw [List.cons_append, backtrackLoop_cons, if_pos ⟨h1, hc⟩]
    exact ih x (hseg x (by simp)) (fun y hy => hseg y (by simp [hy]))

theorem backtrackLoop_bottom (dotdot : Nat) (base : List Char) (hdd : dotdot = base.length) :
    ∀ (seg : List Char) (c : Char), c ≠ '/' → (∀ x ∈ seg, x ≠ '/') →
      backtrackLoop dotdot c (seg ++ base) = base := by
  intro seg
  induction seg with
  | nil =>
    intro c hc _
    cases base with
    | nil => rfl
    | cons b bs =>
      rw [List.nil_append, backtrackLoop_cons, if_neg]
      simp [hdd]
  | cons x xs ih =>
    intro c hc hseg
    have h1 : (x :: (xs ++ base)).length > dotdot := by
      simp only [List.length_cons, List.length_append]; omega
    rw [List.cons_append, backtrackLoop_cons, if_pos ⟨h1, hc⟩]
    exact ih x (hseg x (by simp)) (fun y hy => hseg y (by simp [hy]))

/-- Backtracking over a genuine element on top of the buffer removes exactly that element
and the separator before it. -/
theorem backtrack_pop (rooted : Bool) (dotdot : Nat) (top : List Char)
    (below : List (List Char)) (htop : RealSeg top)
    (hdd : dotdot ≤ (fwdBuf rooted below).length)
    (hbottom : below = [] → dotdot = (fwdBuf rooted below).length) :
    backtrack dotdot (fwdBuf rooted (top :: below)).reverse = (fwdBuf rooted below).reverse := by
  have hfree : ∀ x ∈ top.reverse, x ≠ '/' := by
    intro x hx h
    subst h
    exact htop.2.2.2 (List.mem_reverse.1 hx)
  rw [fwdBuf_cons]
  cases hrev : top.reverse with
  | nil =>
    have : top = [] := by simpa using hrev
    exact absurd this htop.1
  | cons c cs =>
    rw [hrev] at hfree
    have hc : c ≠ '/' := hfree c (by simp)
    have hcs : ∀ x ∈ cs, x ≠ '/' := fun x hx => hfree x (by simp [hx])
    by_cases h : below = []
    · subst h
      simp only [if_true, List.reverse_append, hrev, List.cons_append, backtrack]
      exact backtrackLoop_bottom dotdot _ (by simpa using hbottom rfl) cs c hc hcs
    · simp only [h, if_false, List.reverse_append, List.reverse_cons, hrev, List.cons_append,
        backtrack, List.append_assoc, List.singleton_append]
      exact backtrackLoop_segment dotdot _ (by simpa using hdd) cs c hc hcs

theorem cleanLoop_cons (rooted : Bool) (fuel : Nat) (c : Char) (t out : List Char)
    (dotdot : Nat) :
    cleanLoop rooted (fuel + 1) (c :: t) out dotdot =
      if c = '/' then
        cleanLoop rooted fuel t out dotdot
      else if c = '.' ∧ (t = [] ∨ t.head? = some '/') then
        cleanLoop rooted fuel t out dotdot
      else if c = '.' ∧ t.head? = some '.' ∧ (t.tail = [] ∨ t.tail.head? = some '/') then
        if out.length > dotdot then
          cleanLoop rooted fuel t.tail (backtrack dotdot out) dotdot
        else if !rooted then
          cleanLoop rooted fuel t.tail
            ('.' :: '.' :: (if out.length > 0 then '/' :: out else out))
            ((if out.length > 0 then '/' :: out else out).length + 2)
        else cleanLoop rooted fuel t.tail out dotdot
      else
        cleanLoop rooted fuel ((c :: t).dropWhile notSep)
          (((c :: t).takeWhile notSep).reverse ++
            (if (rooted = true ∧ out.length ≠ 1) ∨ (rooted = false ∧ out.length ≠ 0) then
              '/' :: out
            else out))
          dotdot := by
  rfl

theorem length_fwdBuf_le (rooted : Bool) (stack : List (List Char)) :
    ∀ (reals : List (List Char)), (∀ s ∈ reals, s ≠ []) →
      (fwdBuf rooted stack).length ≤ (fwdBuf rooted (reals ++ stack)).length ∧
        (reals ≠ [] → (fwdBuf rooted stack).length < (fwdBuf rooted (reals ++ stack)).length) := by
  intro reals
  induction reals with
  | nil => intro _; simp
  | cons r rs ih =>
    intro h
    have h1 := (ih (fun s hs => h s (by simp [hs]))).1
    have h2 := length_fwdBuf_cons rooted (rs ++ stack) r (h r (by simp))
    simp only [List.cons_append]
    exact ⟨by omega, fun _ => by omega⟩

theorem at_boundary (t : List Char) (h : t = [] ∨ t.head? = some '/') :
    t.takeWhile notSep = [] ∧ t.dropWhile notSep = t := by
  cases t with
  | nil => simp
  | cons x xs =>
    have hx : x = '/' := by simpa using h
    subst hx
    simp [notSep]

theorem dd_ne_nil : (['.', '.'] : List Char) ≠ [] := by simp

theorem length_fwdBuf_dd_pos (k : Nat) :
    0 < (fwdBuf false (List.replicate k ['.', '.'])).length ↔ k ≠ 0 := by
  cases k with
  | zero => simp [fwdBuf, joinSlash]
  | succ n =>
    have := length_fwdBuf_cons false (List.replicate n ['.', '.']) ['.', '.'] dd_ne_nil
    simp only [List.replicate_succ]
    constructor
    · intro _; omega
    · intro _; omega

theorem stack_ne_nil_of_mem (k : Nat) (reals : List (List Char))
    (hreals : ∀ s ∈ reals, RealSeg s) :
    ∀ s ∈ reals ++ List.replicate k ['.', '.'], s ≠ [] := by
  intro s hs
  rcases List.mem_append.1 hs with h | h
  · exact (hreals s h).1
  · rw [List.eq_of_mem_replicate h]
    simp

theorem cleanStep_dotdot_real (rooted : Bool) (top : List Char)
    (below : List (List Char)) (htop : RealSeg top) :
    cleanStep rooted (top :: below) ['.', '.'] = below := by
  simp [cleanStep, htop.2.2.1]

theorem cleanStep_dotdot_run (k : Nat) :
    cleanStep false (List.replicate k ['.', '.']) ['.', '.']
      = List.replicate (k + 1) ['.', '.'] := by
  cases k with
  | zero => simp [cleanStep]
  | succ n => simp [cleanStep, List.replicate_succ]

/-- The scanning loop of `Clean` computes, on the buffer holding a stack of elements, the
buffer holding the stack after the remaining elements have been processed one by one. -/
theorem cleanLoop_spec (rooted : Bool) :
    ∀ (fuel : Nat) (rest : List Char) (k : Nat) (reals : List (List Char)),
      rest.length ≤ fuel → (∀ s ∈ reals, RealSeg s) → (rooted = true → k = 0) →
      cleanLoop rooted fuel rest
          (fwdBuf rooted (reals ++ List.replicate k ['.', '.'])).reverse
          (fwdBuf rooted (List.replicate k ['.', '.'])).length
        = (fwdBuf rooted
            ((splitSlash rest).foldl (cleanStep rooted)
              (reals ++ List.replicate k ['.', '.']))).reverse := by
  intro fuel
  induction fuel with
  | zero =>
    intro rest k reals hlen _ _
    have : rest = [] := List.length_eq_zero.1 (Nat.le_zero.1 hlen)
    subst this
    simp [cleanLoop, splitSlash, cleanStep_nil]
  | succ fuel ih =>
    intro rest k reals hlen hreals hk
    cases rest with
    | nil => simp [cleanLoop, splitSlash, cleanStep_nil]
    | cons c t =>
      have ht : t.length ≤ fuel := by simpa using hlen
      rw [cleanLoop_cons]
      by_cases hsep : c = '/'
      · subst hsep
        rw [if_pos rfl, splitSlash_cons_slash, List.foldl_cons, cleanStep_nil]
        exact ih t k reals ht hreals hk
      · rw [if_neg hsep]
        have hnot : notSep c = true := by simp [notSep, hsep]
        by_cases hdot : c = '.' ∧ (t = [] ∨ t.head? = some '/')
        · rw [if_pos hdot, foldl_cleanStep_takeWhile]
          obtain ⟨h1, h2⟩ := at_boundary t hdot.2
          have htw : (c :: t).takeWhile notSep = ['.'] := by
            simp [List.takeWhile_cons, hnot, h1]; exact hdot.1
          have hdw : (c :: t).dropWhile notSep = t := by
            simp [List.dropWhile_cons, hnot, h2]
          rw [htw, hdw]
          have : cleanStep rooted (reals ++ List.replicate k ['.', '.']) ['.']
              = reals ++ List.replicate k ['.', '.'] := by simp [cleanStep]
          rw [this]
          exact ih t k reals ht hreals hk
        · rw [if_neg hdot]
          by_cases hdd : c = '.' ∧ t.head? = some '.' ∧ (t.tail = [] ∨ t.tail.head? = some '/')
          · rw [if_pos hdd, foldl_cleanStep_takeWhile]
            obtain ⟨hc, hhead, htail⟩ := hdd
            obtain ⟨t2, rfl⟩ : ∃ t2, t = '.' :: t2 := by
              cases t with
              | nil => simp at hhead
              | cons x xs => exact ⟨xs, by simp at hhead; rw [hhead]⟩
            simp only [List.tail_cons] at htail ⊢
            obtain ⟨h1, h2⟩ := at_boundary t2 htail
            have hnotdot : notSep '.' = true := by decide
            have htw : (c :: '.' :: t2).takeWhile notSep = ['.', '.'] := by
              simp [List.takeWhile_cons, hnot, hnotdot, h1]; exact hc
            have hdw : (c :: '.' :: t2).dropWhile notSep = t2 := by
              simp [List.dropWhile_cons, hnot, hnotdot, h2]
            rw [htw, hdw]
            have ht2 : t2.length ≤ fuel := by
              simp only [List.length_cons] at ht; omega
            cases reals with
            | nil =>
              simp only [List.nil_append, List.length_reverse, gt_iff_lt, lt_self_iff_false,
                if_false]
              cases rooted with
              | true =>
                have hk0 := hk rfl
                subst hk0
                simp only [Bool.not_true, Bool.false_eq_true, if_false]
                have : cleanStep true (List.replicate 0 ['.', '.']) ['.', '.']
                    = [] ++ List.replicate 0 ['.', '.'] := by simp [cleanStep]
                rw [this]
                exact ih t2 0 [] ht2 (by simp) (fun _ => rfl)
              | false =>
                simp only [Bool.not_false, if_true]
                rw [cleanStep_dotdot_run]
                have hbuf : (fwdBuf false (List.replicate (k + 1) ['.', '.'])).reverse
                    = '.' :: '.' ::
                        (if 0 < (fwdBuf false (List.replicate k ['.', '.'])).length then
                          '/' :: (fwdBuf false (List.replicate k ['.', '.'])).reverse
                        else (fwdBuf false (List.replicate k ['.', '.'])).reverse) := by
                  rw [List.replicate_succ, fwdBuf_cons]
                  by_cases hk0 : k = 0
                  · subst hk0
                    simp [fwdBuf, joinSlash]
                  · have hpos := (length_fwdBuf_dd_pos k).2 hk0
                    have hne : List.replicate k ['.', '.'] ≠ [] := by
                      simpa using hk0
                    simp [hne, hpos]
                have hlen2 : (if 0 < (fwdBuf false (List.replicate k ['.', '.'])).length then
                      '/' :: (fwdBuf false (List.replicate k ['.', '.'])).reverse
                    else (fwdBuf false (List.replicate k ['.', '.'])).reverse).length + 2
                    = (fwdBuf false (List.replicate (k + 1) ['.', '.'])).length := by
                  have := congrArg List.length hbuf
                  simp only [List.length_reverse, List.length_cons] at this ⊢
                  omega
                rw [hlen2, ← hbuf]
                have := ih t2 (k + 1) [] ht2 (by simp) (by simp)
                simpa using this
            | cons top reals' =>
              have htop := hreals top (by simp)
              have hlt := (length_fwdBuf_le rooted (List.replicate k ['.', '.'])
                (top :: reals') (fun s hs => (hreals s hs).1)).2 (by simp)
              have hle := (length_fwdBuf_le rooted (List.replicate k ['.', '.'])
                reals' (fun s hs => (hreals s (by simp [hs])).1)).1
              simp only [List.cons_append] at hlt
              simp only [List.length_reverse, gt_iff_lt, List.cons_append]
              rw [if_pos hlt, cleanStep_dotdot_real rooted top _ htop,
                backtrack_pop rooted _ top _ htop hle]
              · exact ih t2 k reals' ht2 (fun s hs => hreals s (by simp [hs])) hk
              · intro hnil
                have h1 : reals' = [] := (List.append_eq_nil.1 hnil).1
                subst h1
                rfl
          · rw [if_neg hdd, foldl_cleanStep_takeWhile]
            have hreal : RealSeg ((c :: t).takeWhile notSep) := by
              have htw : (c :: t).takeWhile notSep = c :: t.takeWhile notSep := by
                simp [List.takeWhile_cons, hnot]
              refine ⟨by rw [htw]; simp, ?_, ?_, ?_⟩
              · rw [htw]
                intro h
                simp only [List.cons.injEq] at h
                apply hdot
                refine ⟨h.1, ?_⟩
                cases t with
                | nil => exact Or.inl rfl
                | cons x xs =>
                  right
                  by_cases hx : notSep x = true
                  · simp [List.takeWhile_cons, hx] at h
                  · simpa [notSep] using hx
              · rw [htw]
                intro h
                simp only [List.cons.injEq] at h
                apply hdd
                refine ⟨h.1, ?_⟩
                cases t with
                | nil => simp at h
                | cons x xs =>
                  by_cases hx : notSep x = true
                  · simp only [List.takeWhile_cons, hx, if_true, List.cons.injEq] at h
                    refine ⟨by simp [h.2.1], ?_⟩
                    cases xs with
                    | nil => exact Or.inl rfl
                    | cons y ys =>
                      right
                      by_cases hy : notSep y = true
                      · simp [List.takeWhile_cons, hy] at h
                      · simpa [notSep] using hy
                  · simp [List.takeWhile_cons, hx] at h
              · intro hmem
                have := List.mem_takeWhile_imp hmem
                simp [notSep] at this
            rw [cleanStep_real rooted _ _ hreal]
            have hsepiff := sep_needed_iff rooted (reals ++ List.replicate k ['.', '.'])
              (stack_ne_nil_of_mem k reals hreals)
            have hbuf : ((c :: t).takeWhile notSep).reverse ++
                (if (rooted = true ∧
                      (fwdBuf rooted (reals ++ List.replicate k ['.', '.'])).reverse.length ≠ 1) ∨
                    (rooted = false ∧
                      (fwdBuf rooted (reals ++ List.replicate k ['.', '.'])).reverse.length ≠ 0)
                  then '/' :: (fwdBuf rooted (reals ++ List.replicate k ['.', '.'])).reverse
                  else (fwdBuf rooted (reals ++ List.replicate k ['.', '.'])).reverse)
                = (fwdBuf rooted
                    ((c :: t).takeWhile notSep :: (reals ++ List.replicate k ['.', '.']))).reverse := by
              rw [fwdBuf_cons]
              by_cases hst : reals ++ List.replicate k ['.', '.'] = []
              · rw [if_neg (fun h => (hsepiff.1 h) hst), if_pos hst, hst]
                simp
              · rw [if_pos (hsepiff.2 hst), if_neg hst]
                simp
            rw [hbuf]
            have hlen' : ((c :: t).dropWhile notSep).length ≤ fuel := by
              have : (c :: t).dropWhile notSep = t.dropWhile notSep := by
                simp [List.dropWhile_cons, hnot]
              rw [this]
              exact le_trans (List.dropWhile_sublist notSep).length_le ht
            have := ih ((c :: t).dropWhile notSep) k ((c :: t).takeWhile notSep :: reals) hlen'
              (by
                intro s hs
                rcases List.mem_cons.1 hs with h | h
                · rw [h]; exact hreal
                · exact hreals s h) hk
            simpa using this

/-- The byte-scanning `Clean` computes the element-wise cleaning. -/
theorem Clean_eq_cleanElements (path : List Char) : Clean path = cleanElements path := by
  cases path with
  | nil => rfl
  | cons c t =>
    by_cases hc : c = '/'
    · subst hc
      have hspec := cleanLoop_spec true ('/' :: t).length t 0 [] (by simp) (by simp)
        (fun _ => rfl)
      have hbuf : (fwdBuf true ([] ++ List.replicate 0 ['.', '.'])).reverse = ['/'] := rfl
      have hlen : (fwdBuf true (List.replicate 0 ['.', '.'])).length = 1 := rfl
      rw [hbuf, hlen] at hspec
      simp only [Clean, cleanElements, List.head?_cons, decide_True, if_true, List.tail_cons, hspec,
        List.length_reverse, List.reverse_reverse, splitSlash_cons_slash, List.foldl_cons,
        cleanStep_nil, reduceCtorEq, if_false]
      simp [fwdBuf]
    · have hspec := cleanLoop_spec false (c :: t).length (c :: t) 0 [] (le_refl _) (by simp)
        (by simp)
      have hbuf : (fwdBuf false ([] ++ List.replicate 0 ['.', '.'])).reverse = [] := rfl
      have hlen : (fwdBuf false (List.replicate 0 ['.', '.'])).length = 0 := rfl
      rw [hbuf, hlen] at hspec
      simp only [List.nil_append, List.replicate_zero] at hspec
      obtain ⟨k, reals, hshape, hreals⟩ :=
        foldl_cleanStep_outShape (splitSlash (c :: t)) [] (splitSlash_noslash (c :: t))
          ⟨0, [], by simp, by simp⟩
      have hnil : joinSlash ((splitSlash (c :: t)).foldl (cleanStep false) []).reverse = [] ↔
          (splitSlash (c :: t)).foldl (cleanStep false) [] = [] := by
        rw [joinSlash_eq_nil]
        · simp
        · intro s hs
          rw [hshape] at hs
          exact stack_ne_nil_of_mem k reals hreals s (List.mem_reverse.1 hs)
      have hhead : ((c :: t).head? = some '/') = False := by simp [hc]
      simp only [Clean, cleanElements, hhead, decide_False, Bool.false_eq_true, if_false, hspec,
        List.length_reverse, List.reverse_reverse, reduceCtorEq]
      by_cases hst : (splitSlash (c :: t)).foldl (cleanStep false) [] = []
      · simp [hst, fwdBuf, joinSlash]
      · have : joinSlash ((splitSlash (c :: t)).foldl (cleanStep false) []).reverse ≠ [] :=
          fun h => hst (hnil.1 h)
        simp [hst, fwdBuf, this]

theorem joinSlash_dotdot_hasPrefix (k : Nat) (rest : List (List Char)) :
    HasPrefix (joinSlash (List.replicate (k + 1) ['.', '.'] ++ rest)) ['.', '.'] = true := by
  cases h : List.replicate k ['.', '.'] ++ rest with
  | nil => simp [List.replicate_succ, h, joinSlash, HasPrefix]
  | cons t more => simp [List.replicate_succ, h, joinSlash, HasPrefix]

theorem clean_of_abs (p : List Char) (h : IsAbs p = true) :
    ∃ R : List (List Char), (∀ s ∈ R, RealSeg s) ∧ Clean p = '/' :: joinSlash R := by
  refine ⟨((splitSlash p).foldl (cleanStep true) []).reverse, ?_, ?_⟩
  · intro s hs
    exact foldl_cleanStep_rooted_real _ [] (splitSlash_noslash p) (by simp) s
      (List.mem_reverse.1 hs)
  · unfold IsAbs at h
    simp only [decide_eq_true_eq] at h
    simp [Clean_eq_cleanElements, cleanElements, h]

theorem clean_of_rel (p : List Char) (h : IsAbs p = false)
    (hdot : Clean p ≠ ['.']) (hpre : HasPrefix (Clean p) ['.', '.'] = false) :
    ∃ R : List (List Char), (∀ s ∈ R, RealSeg s) ∧ R ≠ [] ∧ Clean p = joinSlash R := by
  unfold IsAbs at h
  simp only [decide_eq_false_iff_not] at h
  obtain ⟨k, reals, hout, hreals⟩ :=
    foldl_cleanStep_outShape (splitSlash p) [] (splitSlash_noslash p) ⟨0, [], by simp, by simp⟩
  have hclean : Clean p =
      if (splitSlash p).foldl (cleanStep false) [] = [] then ['.']
      else joinSlash ((splitSlash p).foldl (cleanStep false) []).reverse := by
    simp [Clean_eq_cleanElements, cleanElements, h]
  by_cases hnil : (splitSlash p).foldl (cleanStep false) [] = []
  · rw [hclean, if_pos hnil] at hdot
    exact absurd rfl hdot
  · rw [if_neg hnil] at hclean
    cases k with
    | zero =>
      simp only [List.replicate_zero, List.append_nil] at hout
      refine ⟨reals.reverse, fun s hs => hreals s (List.mem_reverse.1 hs), ?_, ?_⟩
      · rw [hout] at hnil
        simpa using hnil
      · rw [hclean, hout]
    | succ n =>
      rw [hclean, hout, List.reverse_append, List.reverse_replicate,
        joinSlash_dotdot_hasPrefix] at hpre
      exact absurd hpre (by simp)

theorem realSeg_dataFolder : RealSeg DataFolder := by
  refine ⟨?_, ?_, ?_, ?_⟩ <;> decide

theorem head_joinSlash_data (R : List (List Char)) :
    (joinSlash (DataFolder :: R)).head? = some 'd' := by
  cases R <;> rfl

theorem clean_data_join (R : List (List Char)) (hR : ∀ s ∈ R, RealSeg s)
    (segs : List (List Char))
    (hsegs : segs = R ∨ segs = [] :: R ∨ (R = [] ∧ segs = [[], []]))
    (c : List Char) (hc : splitSlash c = segs) :
    Join [DataFolder, c] = joinSlash (DataFolder :: R) := by
  have hD := realSeg_dataFolder
  have hjoin : Join [DataFolder, c] = Clean (DataFolder ++ '/' :: c) := by
    simp [Join, List.dropWhile, DataFolder, joinSlash]
  have hhead : (DataFolder ++ '/' :: c).head? = some 'd' := rfl
  have hfold : (splitSlash (DataFolder ++ '/' :: c)).foldl (cleanStep false) []
      = R.reverse ++ [DataFolder] := by
    rw [splitSlash_append, splitSlash_of_noslash _ hD.2.2.2, hc, List.singleton_append,
      List.foldl_cons, cleanStep_real _ _ _ hD]
    rcases hsegs with h | h | ⟨h1, h2⟩
    · rw [h, foldl_cleanStep_real _ _ _ hR]
    · rw [h, List.foldl_cons, cleanStep_nil, foldl_cleanStep_real _ _ _ hR]
    · subst h1; subst h2
      simp [cleanStep_nil]
  rw [hjoin]
  simp [Clean_eq_cleanElements, cleanElements, hhead, hfold]

theorem abs_data_join (cwd : List Char) (hcwd : IsAbs cwd = true)
    (R : List (List Char)) (hR : ∀ s ∈ R, RealSeg s) :
    (Abs (some cwd) (joinSlash (DataFolder :: R))).1 =
      '/' :: joinSlash
        (((splitSlash cwd).foldl (cleanStep true) []).reverse ++ DataFolder :: R) := by
  have hD := realSeg_dataFolder
  have hall : ∀ s ∈ DataFolder :: R, RealSeg s := by
    intro s hs
    rcases List.mem_cons.1 hs with h | h
    · subst h; exact hD
    · exact hR s h
  have hrel : IsAbs (joinSlash (DataFolder :: R)) = false := by
    simp [IsAbs, head_joinSlash_data]
  unfold IsAbs at hcwd
  simp only [decide_eq_true_eq] at hcwd
  have hne : cwd ≠ [] := by
    intro h; subst h; simp at hcwd
  have hhead : (cwd ++ '/' :: joinSlash (DataFolder :: R)).head? = some '/' := by
    cases cwd with
    | nil => exact absurd rfl hne
    | cons a as => simpa using hcwd
  have hjoin : Join [cwd, joinSlash (DataFolder :: R)]
      = Clean (cwd ++ '/' :: joinSlash (DataFolder :: R)) := by
    simp [Join, List.dropWhile, hne, joinSlash]
  simp only [Abs, hrel, Bool.false_eq_true, if_false, hjoin]
  simp only [Clean_eq_cleanElements, cleanElements, hhead, decide_True, if_true]
  rw [splitSlash_append, List.foldl_append,
    splitSlash_joinSlash _ (by simp) (fun s hs => (hall s hs).2.2.2),
    foldl_cleanStep_real _ _ _ hall]
  simp

theorem wdSegs_real (cwd : List Char) : ∀ s ∈ wdSegs cwd, RealSeg s := by
  intro s hs
  exact foldl_cleanStep_rooted_real _ [] (splitSlash_noslash cwd) (by simp) s
    (List.mem_reverse.1 hs)

theorem baseDir_eq (cwd : List Char) (hcwd : IsAbs cwd = true) :
    (Abs (some cwd) DataFolder).1 = '/' :: joinSlash (wdSegs cwd ++ [DataFolder]) := by
  have := abs_data_join cwd hcwd [] (by simp)
  simpa [joinSlash, wdSegs] using this

theorem joinSlash_real_ne_nil (R : List (List Char)) (hR : ∀ s ∈ R, RealSeg s) (hne : R ≠ []) :
    joinSlash R ≠ [] := by
  cases R with
  | nil => exact absurd rfl hne
  | cons s rest =>
    cases rest with
    | nil => simpa [joinSlash] using (hR s (by simp)).1
    | cons t more => simp [joinSlash]

theorem resolvePath_shape (cwd p : List Char) (hcwd : IsAbs cwd = true)
    (hdot : Clean p ≠ ['.']) (hpre : HasPrefix (Clean p) ['.', '.'] = false) :
    ∃ R : List (List Char), (∀ s ∈ R, RealSeg s) ∧
      (IsAbs p = false → R ≠ [] ∧ Clean p = joinSlash R) ∧
      (IsAbs p = true → Clean p = '/' :: joinSlash R) ∧
      resolvePath (some cwd) p = .ok ('/' :: joinSlash (wdSegs cwd ++ DataFolder :: R)) := by
  have key : ∀ R : List (List Char), (∀ s ∈ R, RealSeg s) → Clean p ≠ [] →
      Join [DataFolder, Clean p] = joinSlash (DataFolder :: R) →
      resolvePath (some cwd) p = .ok ('/' :: joinSlash (wdSegs cwd ++ DataFolder :: R)) := by
    intro R hR hne hjoin
    have hres := abs_data_join cwd hcwd R hR
    have hbase := baseDir_eq cwd hcwd
    have hpfx : HasPrefix ('/' :: joinSlash (wdSegs cwd ++ DataFolder :: R))
        ('/' :: joinSlash (wdSegs cwd ++ [DataFolder])) = true := by
      cases R with
      | nil => simp [HasPrefix]
      | cons t more =>
        have : wdSegs cwd ++ DataFolder :: t :: more
            = (wdSegs cwd ++ [DataFolder]) ++ t :: more := by simp
        rw [this, joinSlash_append _ _ (by simp) (by simp)]
        simp [HasPrefix]
    unfold resolvePath
    simp only [hne, hdot, or_self, if_false, hpre, Bool.false_eq_true, hjoin, hres, hbase,
      wdSegs]
    simp only [wdSegs] at hpfx
    simp [hpfx]
  cases habs : IsAbs p with
  | true =>
    obtain ⟨R, hR, hclean⟩ := clean_of_abs p habs
    refine ⟨R, hR, by simp, fun _ => hclean, ?_⟩
    apply key R hR (by rw [hclean]; simp)
    rw [hclean]
    cases R with
    | nil =>
      exact clean_data_join [] hR [[], []] (Or.inr (Or.inr ⟨rfl, rfl⟩)) _
        (by simp [joinSlash, splitSlash])
    | cons t more =>
      exact clean_data_join _ hR ([] :: t :: more) (Or.inr (Or.inl rfl)) _
        (by rw [splitSlash_cons_slash,
          splitSlash_joinSlash _ (by simp) (fun s hs => (hR s hs).2.2.2)])
  | false =>
    obtain ⟨R, hR, hne, hclean⟩ := clean_of_rel p habs hdot hpre
    refine ⟨R, hR, fun _ => ⟨hne, hclean⟩, by simp, ?_⟩
    apply key R hR (by rw [hclean]; exact joinSlash_real_ne_nil R hR hne)
    rw [hclean]
    exact clean_data_join R hR R (Or.inl rfl) _
      (splitSlash_joinSlash _ hne (fun s hs => (hR s hs).2.2.2))

theorem splitSlash_rooted_join (L : List (List Char)) (hne : L ≠ [])
    (hL : ∀ s ∈ L, RealSeg s) : splitSlash ('/' :: joinSlash L) = [] :: L := by
  rw [splitSlash_cons_slash, splitSlash_joinSlash L hne (fun s hs => (hL s hs).2.2.2)]

/-- C1: with an absolute working directory (what `os.Getwd` returns), every path returned by
`resolvePath` is the sandbox root itself or the root followed by a separator and further
elements; component-wise the root is a prefix of the result, so it is no sibling sharing
the root as a string, no component of the result is `..`, and the result is absolute. -/
theorem resolvePath_within_root (cwd p r : List Char) (hcwd : IsAbs cwd = true)
    (h : resolvePath (some cwd) p = .ok r) :
    (r = (Abs (some cwd) DataFolder).1 ∨
        ∃ rest, r = (Abs (some cwd) DataFolder).1 ++ '/' :: rest) ∧
      splitSlash (Abs (some cwd) DataFolder).1 <+: splitSlash r ∧
      ['.', '.'] ∉ splitSlash r ∧
      IsAbs r = true := by
  have hbase := baseDir_eq cwd hcwd
  have hD := realSeg_dataFolder
  have hall : ∀ (R : List (List Char)), (∀ s ∈ R, RealSeg s) →
      ∀ s ∈ wdSegs cwd ++ DataFolder :: R, RealSeg s := by
    intro R hR s hs
    rcases List.mem_append.1 hs with h1 | h1
    · exact wdSegs_real cwd s h1
    · rcases List.mem_cons.1 h1 with h2 | h2
      · subst h2; exact hD
      · exact hR s h2
  have hnodd : ∀ (R : List (List Char)), (∀ s ∈ R, RealSeg s) →
      ['.', '.'] ∉ splitSlash ('/' :: joinSlash (wdSegs cwd ++ DataFolder :: R)) := by
    intro R hR
    rw [splitSlash_rooted_join _ (by simp) (hall R hR)]
    intro hmem
    rcases List.mem_cons.1 hmem with h1 | h1
    · exact absurd h1 (by decide)
    · exact (hall R hR _ h1).2.2.1 rfl
  by_cases hdot : Clean p = ['.']
  · have hr : r = (Abs (some cwd) DataFolder).1 := by
      unfold resolvePath at h
      simp only [hdot, or_true, if_true] at h
      exact (Except.ok.inj h).symm
    refine ⟨Or.inl hr, by rw [hr], ?_, ?_⟩
    · rw [hr, hbase]; exact hnodd [] (by simp)
    · rw [hr, hbase]; rfl
  · cases hpre : HasPrefix (Clean p) ['.', '.'] with
    | true =>
      have hne : Clean p ≠ [] := by
        intro h0; rw [h0] at hpre; simp [HasPrefix] at hpre
      unfold resolvePath at h
      simp [hdot, hne, hpre] at h
    | false =>
      obtain ⟨R, hR, -, -, hres⟩ := resolvePath_shape cwd p hcwd hdot hpre
      rw [hres] at h
      have hr := (Except.ok.inj h).symm
      subst hr
      refine ⟨?_, ?_, hnodd R hR, rfl⟩
      · cases R with
        | nil => left; rw [hbase]
        | cons t more =>
          right
          refine ⟨joinSlash (t :: more), ?_⟩
          have : wdSegs cwd ++ DataFolder :: t :: more
              = (wdSegs cwd ++ [DataFolder]) ++ t :: more := by simp
          rw [hbase, this, joinSlash_append _ _ (by simp) (by simp)]
          simp
      · rw [hbase, splitSlash_rooted_join _ (by simp) (hall R hR),
          splitSlash_rooted_join _ (by simp) (by simpa using hall [] (by simp))]
        refine ⟨R, ?_⟩
        simp

theorem resolvePath_within_root_witness :
    IsAbs "/srv/app".toList = true ∧
    resolvePath (some "/srv/app".toList) "docs/../team.json".toList
      = .ok "/srv/app/data/team.json".toList ∧
    (("/srv/app/data/team.json".toList = (Abs (some "/srv/app".toList) DataFolder).1 ∨
        ∃ rest, "/srv/app/data/team.json".toList
          = (Abs (some "/srv/app".toList) DataFolder).1 ++ '/' :: rest) ∧
      splitSlash (Abs (some "/srv/app".toList) DataFolder).1
        <+: splitSlash "/srv/app/data/team.json".toList ∧
      ['.', '.'] ∉ splitSlash "/srv/app/data/team.json".toList ∧
      IsAbs "/srv/app/data/team.json".toList = true) :=
  ⟨by decide, by rfl,
    resolvePath_within_root "/srv/app".toList "docs/../team.json".toList
      "/srv/app/data/team.json".toList (by decide) (by rfl)⟩

/-- C7 (as amended): a relative path whose cleaned form does not begin with the two
characters `..` is accepted; the result is the sandbox root when the cleaned form is `.`,
and otherwise the root followed by a separator and the cleaned form. The root is an
absolute path. -/
theorem resolvePath_accepts_relative (cwd p : List Char) (hcwd : IsAbs cwd = true)
    (hrel : IsAbs p = false) (hpre : HasPrefix (Clean p) ['.', '.'] = false) :
    IsAbs (Abs (some cwd) DataFolder).1 = true ∧
      ((Clean p = ['.'] ∧ resolvePath (some cwd) p = .ok (Abs (some cwd) DataFolder).1) ∨
        (Clean p ≠ ['.'] ∧
          resolvePath (some cwd) p = .ok ((Abs (some cwd) DataFolder).1 ++ '/' :: Clean p))) := by
  have hbase := baseDir_eq cwd hcwd
  refine ⟨by rw [hbase]; rfl, ?_⟩
  by_cases hdot : Clean p = ['.']
  · left
    refine ⟨hdot, ?_⟩
    unfold resolvePath
    simp [hdot]
  · right
    refine ⟨hdot, ?_⟩
    obtain ⟨R, -, hrelR, -, hres⟩ := resolvePath_shape cwd p hcwd hdot hpre
    obtain ⟨hne, hclean⟩ := hrelR hrel
    have hsplit : wdSegs cwd ++ DataFolder :: R = (wdSegs cwd ++ [DataFolder]) ++ R := by simp
    rw [hres, hbase, hclean, hsplit, joinSlash_append _ _ (by simp) hne]
    simp

theorem resolvePath_accepts_relative_witness :
    IsAbs (Abs (some "/srv/app".toList) DataFolder).1 = true ∧
      ((Clean "notes/./a.txt".toList = ['.'] ∧
          resolvePath (some "/srv/app".toList) "notes/./a.txt".toList
            = .ok (Abs (some "/srv/app".toList) DataFolder).1) ∨
        (Clean "notes/./a.txt".toList ≠ ['.'] ∧
          resolvePath (some "/srv/app".toList) "notes/./a.txt".toList
            = .ok ((Abs (some "/srv/app".toList) DataFolder).1
                ++ '/' :: Clean "notes/./a.txt".toList))) :=
  resolvePath_accepts_relative "/srv/app".toList "notes/./a.txt".toList
    (by decide) (by decide) (by decide)

/-- C7 (as stated) fails: the relative path `..foo` has the cleaned form `..foo`, none of
whose components is `..`, and yet `resolvePath` rejects it. -/
theorem resolvePath_rejects_dotdot_name :
    IsAbs "..foo".toList = false ∧
      ['.', '.'] ∉ splitSlash (Clean "..foo".toList) ∧
      resolvePath (some "/srv/app".toList) "..foo".toList
        = .error "path cannot escape data folder" :=
  ⟨by decide, by decide, by rfl⟩

theorem head_splitSlash_isPrefixOf (s seg : List Char)
    (h : (splitSlash s).head? = some seg) : seg.isPrefixOf s = true := by
  induction s generalizing seg with
  | nil =>
    simp [splitSlash] at h
    subst h
    rfl
  | cons c cs ih =>
    by_cases hc : c = '/'
    · subst hc
      rw [splitSlash_cons_slash] at h
      simp at h
      subst h
      rfl
    · cases hs : splitSlash cs with
      | nil => exact absurd hs (splitSlash_ne_nil cs)
      | cons t ts =>
        rw [splitSlash_cons_other c cs t ts hc hs] at h
        simp at h
        subst h
        have := ih t (by simp [hs])
        simp [List.isPrefixOf, this]

theorem resolvePath_escape (wd : Option (List Char)) (p : List Char)
    (h : (splitSlash (Clean p)).head? = some ['.', '.']) :
    resolvePath wd p = .error "path cannot escape data folder" := by
  have hpre : HasPrefix (Clean p) ['.', '.'] = true := head_splitSlash_isPrefixOf _ _ h
  have hne : Clean p ≠ [] := by
    intro h0
    rw [h0] at h
    simp [splitSlash] at h
  have hdot : Clean p ≠ ['.'] := by
    intro h0
    rw [h0] at h
    revert h
    decide
  unfold resolvePath
  simp [hne, hdot, hpre]

/-- C2: when the cleaned form of the path begins with a `..` element, `HandleReadFile`
returns the error result with the text `Error: path cannot escape data folder`, a nil
error, and performs no operation on the file system: the outcome is the same for every
state of the operating system. -/
theorem HandleReadFile_rejects_escape (env : Env) (p : List Char)
    (h : (splitSlash (Clean p)).head? = some ['.', '.']) :
    HandleReadFile env { path := p } =
      { ops := [],
        result := { content := [.text "Error: path cannot escape data folder"],
                    isError := true },
        err := none } := by
  unfold HandleReadFile
  simp only [resolvePath_escape env.wd p h]
  rfl

theorem HandleReadFile_rejects_escape_witness :
    (splitSlash (Clean "../../etc/passwd".toList)).head? = some ['.', '.'] ∧
      HandleReadFile sampleEnv { path := "../../etc/passwd".toList } =
        { ops := [],
          result := { content := [.text "Error: path cannot escape data folder"],
                      isError := true },
          err := none } :=
  ⟨by decide, HandleReadFile_rejects_escape sampleEnv "../../etc/passwd".toList (by decide)⟩

/-! ## Tool handlers -/

/-- C5 (violated by `HandleSearchFiles`): when `grep` itself fails (malformed pattern `[`,
exit status 2, diagnostic on its output), the handler returns the diagnostic as an
ordinary result with `isError = false`. -/
theorem HandleSearchFiles_failure_not_flagged :
    HandleSearchFiles badPatternEnv { pattern := "[", path := [] } =
      { ops := [.grep "[" "/srv/app/data".toList],
        result := { content := [.text "grep: Unmatched [, [^, [:, [., or [=\n"],
                    isError := false },
        err := none } := by
  rfl

/-- Whatever `grep` does, a search whose path resolves is never flagged as an error. -/
theorem HandleSearchFiles_never_flags (env : Env) (args : SearchFilesArgs) (rp : List Char)
    (h : resolvePath env.wd args.path = .ok rp) :
    (HandleSearchFiles env args).result.isError = false := by
  unfold HandleSearchFiles
  rw [h]
  simp only []
  split
  · split <;> rfl
  · rfl

theorem append_ne_empty (a b : String) (ha : a ≠ "") : a ++ b ≠ "" := by
  intro h
  apply ha
  have := congrArg String.data h
  rw [String.data_append] at this
  exact String.ext (List.append_eq_nil.1 this).1

/-- The other two handlers flag every failure: `HandleReadFile` returns an error result
with a non-empty message, and a nil error, when resolution or the read fails. -/
theorem HandleReadFile_flags_failures (env : Env) (args : ReadFileArgs)
    (hfail : (∃ e, resolvePath env.wd args.path = .error e) ∨
      (∃ rp e, resolvePath env.wd args.path = .ok rp ∧ env.readFile rp = .error e)) :
    (HandleReadFile env args).err = none ∧
      ∃ msg, (HandleReadFile env args).result = { content := [.text msg], isError := true } ∧
        msg ≠ "" := by
  rcases hfail with ⟨e, he⟩ | ⟨rp, e, hrp, he⟩
  · simp only [HandleReadFile, he]
    exact ⟨trivial, _, rfl, append_ne_empty _ _ (by decide)⟩
  · simp only [HandleReadFile, hrp, he]
    exact ⟨trivial, _, rfl, append_ne_empty _ _ (by decide)⟩

/-- Likewise `HandleListFiles` returns an error result with a non-empty message, and a nil
error, when resolution, the walk or the directory read fails. -/
theorem HandleListFiles_flags_failures (env : Env) (args : ListFilesArgs)
    (hfail : (∃ e, resolvePath env.wd args.path = .error e) ∨
      (∃ rp e, resolvePath env.wd args.path = .ok rp ∧
        ((args.recursive = true ∧ walkFiles env.rel rp (env.walk rp) [] = .error e) ∨
          (args.recursive = false ∧ env.readDir rp = .error e)))) :
    (HandleListFiles env args).err = none ∧
      ∃ msg, (HandleListFiles env args).result = { content := [.text msg], isError := true } ∧
        msg ≠ "" := by
  rcases hfail with ⟨e, he⟩ | ⟨rp, e, hrp, ⟨hrec, he⟩ | ⟨hrec, he⟩⟩
  · simp only [HandleListFiles, he]
    exact ⟨trivial, _, rfl, append_ne_empty _ _ (by decide)⟩
  · simp only [HandleListFiles, hrp, hrec, if_true, he]
    exact ⟨trivial, _, rfl, append_ne_empty _ _ (by decide)⟩
  · simp only [HandleListFiles, hrp, hrec, Bool.false_eq_true, if_false, he]
    exact ⟨trivial, _, rfl, append_ne_empty _ _ (by decide)⟩

/-! ## Translation functions -/

/-- C8 (violated): the translation functions are not total. `ExtractText` and
`ExtractFunctionCalls` panic on a nil response, on a nil candidate and on a nil part, and
`MCPToGeminiToolsSlice` panics on a nil tool descriptor. -/
theorem translation_panics_on_nil :
    ExtractText none = .error .nilDereference ∧
      ExtractFunctionCalls none = .error .nilDereference ∧
      ExtractText (some { candidates := [none] }) = .error .nilDereference ∧
      ExtractFunctionCalls (some { candidates := [none] }) = .error .nilDereference ∧
      ExtractText (some nilPartResponse) = .error .nilDereference ∧
      ExtractFunctionCalls (some nilPartResponse) = .error .nilDereference ∧
      MCPToGeminiToolsSlice [none] = .error .nilDereference :=
  ⟨rfl, rfl, rfl, rfl, rfl, rfl, rfl⟩

/-- The nil response is one `main` really passes on: when the query inside the tool loop
fails, the SDK hands back a nil response with the error, the loop `break`s, and
`ExtractText(resp)` dereferences it. -/
theorem loop_panics_after_failed_requery :
    (run initialState
        [.line "show team\n" false, .generated (some oneCallResponse) false,
         .toolReturned (some sampleToolResult) false, .generated none true]).pc
      = .panicked := by
  rfl

/-- The cases that are guarded: a candidate without content, a nil tool result and a nil
or non-map input schema give the documented defaults. -/
theorem translation_defaults :
    ExtractFunctionCalls (some { candidates := [some { content := none }] }) = .ok [] ∧
      ExtractText (some { candidates := [some { content := none }] }) = .ok "" ∧
      ExtractToolResult none = "" ∧
      convertSchema .null = Schema.mk TypeObject .nil [] :=
  ⟨rfl, rfl, rfl, rfl⟩

theorem callsOfParts_ok (parts : List (Option Part)) (calls : List FunctionCall)
    (h : parts.all Option.isSome = true) :
    callsOfParts parts calls =
      .ok (calls ++
        ((parts.filterMap id).filterMap fun part => part.functionCall).map toCall) := by
  induction parts generalizing calls with
  | nil => simp [callsOfParts]
  | cons p rest ih =>
    cases p with
    | none => simp at h
    | some part =>
      have hrest : rest.all Option.isSome = true := by
        simp only [List.all_cons, Option.isSome_some, Bool.true_and] at h
        exact h
      cases hfc : part.functionCall with
      | none => simp [callsOfParts, hfc, ih _ hrest]
      | some fc => simp [callsOfParts, hfc, ih _ hrest, toCall]

theorem callsOfCandidates_ok (cands : List (Option Candidate)) (calls : List FunctionCall)
    (h : noNilPointers { candidates := cands } = true) :
    callsOfCandidates cands calls =
      .ok (calls ++
        ((partsInOrder cands).filterMap fun part => part.functionCall).map toCall) := by
  induction cands generalizing calls with
  | nil => simp [callsOfCandidates, partsInOrder]
  | cons c rest ih =>
    cases c with
    | none => simp [noNilPointers] at h
    | some cand =>
      have hrest : noNilPointers { candidates := rest } = true := by
        simp only [noNilPointers, List.all_cons, Bool.and_eq_true] at h ⊢
        exact h.2
      cases hct : cand.content with
      | none => simp [callsOfCandidates, partsInOrder, hct, ih _ hrest]
      | some content =>
        have hparts : content.parts.all Option.isSome = true := by
          simp only [noNilPointers, List.all_cons, Bool.and_eq_true, hct] at h
          exact h.1
        simp [callsOfCandidates, partsInOrder, hct, callsOfParts_ok _ _ hparts, ih _ hrest]

/-- C6: on a response without nil pointers `ExtractFunctionCalls` returns exactly the
function calls carried by the parts, in encounter order (candidates in order, parts in
order within each candidate that has content), each with the name of its part; the
number of calls is the number of such parts, and a response none of whose parts carries a
function call gives the empty sequence. -/
theorem ExtractFunctionCalls_encounter_order (r : GenerateContentResponse)
    (h : noNilPointers r = true) :
    ∃ calls, ExtractFunctionCalls (some r) = .ok calls ∧
      calls = (functionCallParts r).map toCall ∧
      calls.map FunctionCall.name = (functionCallParts r).map GenaiFunctionCall.name ∧
      calls.length = (functionCallParts r).length ∧
      ((∀ part ∈ partsInOrder r.candidates, part.functionCall = none) → calls = []) := by
  refine ⟨(functionCallParts r).map toCall, ?_, rfl, ?_, by simp, ?_⟩
  · cases r with
    | mk cands =>
      simp only [ExtractFunctionCalls, callsOfCandidates_ok cands [] h, functionCallParts,
        List.nil_append]
  · simp [toCall, Function.comp_def]
  · intro hnone
    have : functionCallParts r = [] := by
      simp only [functionCallParts, List.filterMap_eq_nil_iff]
      exact hnone
    rw [this]
    rfl

theorem ExtractFunctionCalls_encounter_order_witness :
    noNilPointers twoCallResponse = true ∧
      ∃ calls, ExtractFunctionCalls (some twoCallResponse) = .ok calls ∧
        calls = (functionCallParts twoCallResponse).map toCall ∧
        calls.map FunctionCall.name
          = (functionCallParts twoCallResponse).map GenaiFunctionCall.name ∧
        calls.length = (functionCallParts twoCallResponse).length ∧
        ((∀ part ∈ partsInOrder twoCallResponse.candidates, part.functionCall = none) →
          calls = []) :=
  ⟨by decide, ExtractFunctionCalls_encounter_order twoCallResponse (by decide)⟩

/-! ## Agent loop -/

theorem paired_append (h t : List Content) (hh : Paired h = true) (ht : Paired t = true) :
    Paired (h ++ t) = true := by
  induction h with
  | nil => simpa using ht
  | cons c rest ih =>
    cases rest with
    | nil =>
      cases t with
      | nil => simpa using hh
      | cons n r =>
        simp only [Paired, Bool.not_eq_true'] at hh
        simp [Paired, hh, ht]
    | cons n r =>
      simp only [Paired, Bool.and_eq_true] at hh
      have := ih hh.2
      simp only [List.cons_append] at this ⊢
      simp only [Paired, Bool.and_eq_true]
      exact ⟨hh.1, this⟩

theorem paired_userTextTurn (q : String) : Paired [userTextTurn q] = true := by
  simp [Paired, holdsFunctionCall, userTextTurn]

theorem paired_modelTextTurn (t : String) : Paired [modelTextTurn t] = true := by
  simp [Paired, holdsFunctionCall, modelTextTurn]

theorem paired_call_result (fc : FunctionCall) (t : String) :
    Paired [functionCallTurn fc, functionResultTurn fc t] = true := by
  simp [Paired, holdsFunctionCall, answeredBy, holdsFunctionResult, functionCallTurn,
    functionResultTurn]

theorem finishQuery_paired (st : LoopState) (resp : Option GenerateContentResponse)
    (h : Paired st.history = true) : Paired (finishQuery st resp).history = true := by
  unfold finishQuery
  split
  · exact h
  · split
    · exact paired_append _ _ h (paired_modelTextTurn _)
    · exact h

theorem toolLoopHead_paired (st : LoopState) (resp : Option GenerateContentResponse)
    (calls : List FunctionCall) (h : Paired st.history = true) :
    Paired (toolLoopHead st resp calls).history = true := by
  unfold toolLoopHead
  split
  · exact h
  · exact finishQuery_paired st resp h

theorem step_paired (st : LoopState) (ev : Event) (h : Paired st.history = true) :
    Paired (step st ev).history = true := by
  unfold step
  split
  · split
    · exact h
    · simp only []
      split
      · exact h
      · split
        · exact h
        · exact paired_append _ _ h (paired_userTextTurn _)
  · split
    · exact h
    · split
      · exact h
      · exact toolLoopHead_paired _ _ _ h
  · split
    · exact finishQuery_paired _ _ h
    · exact paired_append _ _ h (paired_call_result _ _)
  · split
    · exact finishQuery_paired _ _ h
    · split
      · exact h
      · exact toolLoopHead_paired _ _ _ h
  · exact h

/-- C4: in every history the loop can reach from the empty history, whatever lines, model
responses, model failures and tool outcomes arrive, every entry holding a function call
is immediately followed by a user entry holding the function result for the same name. -/
theorem history_always_paired (events : List Event) :
    Paired (run initialState events).history = true := by
  have key : ∀ (st : LoopState), Paired st.history = true →
      Paired (run st events).history = true := by
    induction events with
    | nil => intro st h; exact h
    | cons ev rest ih =>
      intro st h
      exact ih (step st ev) (step_paired st ev h)
  exact key initialState rfl

theorem ExtractToolResult_foldl (content : List ContentItem) :
    ∀ acc : String,
      content.foldl
          (fun text item =>
            match item with
            | .text t => text ++ t
            | .other => text)
          acc
        = (content.filterMap fun item =>
            match item with
            | .text t => some t
            | .other => none).foldl (fun r t => r ++ t) acc := by
  induction content with
  | nil => intro acc; rfl
  | cons item rest ih =>
    intro acc
    cases item with
    | text t => simp [ih]
    | other => simp [ih]

/-- The text handed back for a tool result is the concatenation of its text items, and
the empty string for a nil result. -/
theorem ExtractToolResult_eq (toolResp : Option CallToolResult) :
    ExtractToolResult toolResp =
      match toolResp with
      | none => ""
      | some r =>
        String.join (r.content.filterMap fun item =>
          match item with
          | .text t => some t
          | .other => none) := by
  cases toolResp with
  | none => rfl
  | some r => simp only [ExtractToolResult, String.join, ExtractToolResult_foldl]

/-- C3 (as amended): from a response with calls `first :: others` the loop invokes the
tool host for `first` only; when that invocation succeeds it appends the model entry
whose single part holds the function call (name and arguments of `first`) and then the
user entry whose single part holds the function result for that name, with the tool
output text (the concatenated text items of the tool result) under the key `result`; it
then queries the model again at once with the extended history. The other calls of the
response are not invoked. -/
theorem tool_loop_runs_first_call (st : LoopState) (resp : Option GenerateContentResponse)
    (first : FunctionCall) (others : List FunctionCall) (toolResp : Option CallToolResult)
    (hpc : st.pc = .awaitFirstGenerate ∨ st.pc = .awaitGenerate)
    (hcalls : ExtractFunctionCalls resp = .ok (first :: others)) :
    ∃ toolText : String,
      toolText =
          (match toolResp with
            | none => ""
            | some r =>
              String.join (r.content.filterMap fun item =>
                match item with
                | .text t => some t
                | .other => none)) ∧
        step st (.generated resp false) =
          { history := st.history,
            pc := .awaitTool resp first others,
            trace := st.trace ++ [.callTool first.name first.arguments] } ∧
        run st [.generated resp false, .toolReturned toolResp false] =
          { history := st.history ++
              [{ role := "model",
                 parts := [some { text := "",
                                  functionCall :=
                                    some { name := first.name, args := some first.arguments },
                                  functionResponse := none }] },
               { role := "user",
                 parts := [some { text := "",
                                  functionCall := none,
                                  functionResponse :=
                                    some { name := first.name,
                                           response := .cons "result" (.str toolText) .nil } }] }],
            pc := .awaitGenerate,
            trace := st.trace ++
              [.callTool first.name first.arguments,
               .queryModel (st.history ++
                 [{ role := "model",
                    parts := [some { text := "",
                                     functionCall :=
                                       some { name := first.name, args := some first.arguments },
                                     functionResponse := none }] },
                  { role := "user",
                    parts := [some { text := "",
                                     functionCall := none,
                                     functionResponse :=
                                       some { name := first.name,
                                              response :=
                                                .cons "result" (.str toolText) .nil } }] }])] } := by
  refine ⟨_, rfl, ?_⟩
  rw [← ExtractToolResult_eq]
  cases st with
  | mk history pc trace =>
    simp only at hpc
    rcases hpc with h | h <;> subst h <;>
      simp [run, step, hcalls, toolLoopHead, functionCallTurn, functionResultTurn]

theorem tool_loop_runs_first_call_witness :
    (afterListLine.pc = .awaitFirstGenerate ∨ afterListLine.pc = .awaitGenerate) ∧
      ExtractFunctionCalls (some twoCallResponse) =
        .ok ({ name := "list_files", arguments := .nil } ::
          [{ name := "read_file", arguments := .nil }]) ∧
      run afterListLine
          [.generated (some twoCallResponse) false,
           .toolReturned (some sampleToolResult) false] =
        { history :=
            [{ role := "user", parts := [some { text := "list" }] },
             { role := "model",
               parts := [some { functionCall :=
                                  some { name := "list_files", args := some .nil } }] },
             { role := "user",
               parts := [some { functionResponse :=
                                  some { name := "list_files",
                                         response :=
                                           .cons "result" (.str "Files in :\na.txt") .nil } }] }],
          pc := .awaitGenerate,
          trace :=
            [.callTool "list_files" .nil,
             .queryModel
               [{ role := "user", parts := [some { text := "list" }] },
                { role := "model",
                  parts := [some { functionCall :=
                                     some { name := "list_files", args := some .nil } }] },
                { role := "user",
                  parts := [some { functionResponse :=
                                     some { name := "list_files",
                                            response :=
                                              .cons "result" (.str "Files in :\na.txt")
                                                .nil } }] }]] } :=
  ⟨Or.inl rfl, rfl, by
    obtain ⟨toolText, ht, -, hrun⟩ :=
      tool_loop_runs_first_call afterListLine (some twoCallResponse)
        { name := "list_files", arguments := .nil }
        [{ name := "read_file", arguments := .nil }] (some sampleToolResult)
        (Or.inl rfl) rfl
    have htt : toolText = "Files in :\na.txt" := by rw [ht]; rfl
    subst htt
    exact hrun⟩

/-- C3 (as stated) fails: the response carries the two calls `list_files` and
`read_file`, every tool invocation succeeds, and yet after the first invocation the loop
queries the model again; when the query ends the tool host has been invoked once, for
`list_files`, and never for `read_file`, and the history holds the call and the result
of `list_files` only. -/
theorem batch_second_call_never_invoked :
    ExtractFunctionCalls (some twoCallResponse) =
        .ok [{ name := "list_files", arguments := .nil },
             { name := "read_file", arguments := .nil }] ∧
      run initialState
          [.line "list\n" false, .generated (some twoCallResponse) false,
           .toolReturned (some sampleToolResult) false,
           .generated (some textResponse) false] =
        { history :=
            [{ role := "user", parts := [some { text := "list" }] },
             { role := "model",
               parts := [some { functionCall :=
                                  some { name := "list_files", args := some .nil } }] },
             { role := "user",
               parts := [some { functionResponse :=
                                  some { name := "list_files",
                                         response :=
                                           .cons "result" (.str "Files in :\na.txt") .nil } }] },
             { role := "model", parts := [some { text := "There is one file." }] }],
          pc := .awaitInput,
          trace :=
            [.queryModel [{ role := "user", parts := [some { text := "list" }] }],
             .callTool "list_files" .nil,
             .queryModel
               [{ role := "user", parts := [some { text := "list" }] },
                { role := "model",
                  parts := [some { functionCall :=
                                     some { name := "list_files", args := some .nil } }] },
                { role := "user",
                  parts := [some { functionResponse :=
                                     some { name := "list_files",
                                            response :=
                                              .cons "result" (.str "Files in :\na.txt")
                                                .nil } }] }],
             .display "There is one file."] } :=
  ⟨rfl, rfl⟩

theorem textOfParts_ok_of_calls (parts : List (Option Part)) (calls calls' : List FunctionCall)
    (h : callsOfParts parts calls = .ok calls') (text : String) :
    ∃ text', textOfParts parts text = .ok text' := by
  induction parts generalizing calls text with
  | nil => exact ⟨text, rfl⟩
  | cons p rest ih =>
    cases p with
    | none => simp [callsOfParts] at h
    | some part =>
      simp only [callsOfParts] at h
      simp only [textOfParts]
      split at h <;> split <;> exact ih _ h _

theorem textOfCandidates_ok_of_calls (cands : List (Option Candidate))
    (calls calls' : List FunctionCall)
    (h : callsOfCandidates cands calls = .ok calls') (text : String) :
    ∃ text', textOfCandidates cands text = .ok text' := by
  induction cands generalizing calls text with
  | nil => exact ⟨text, rfl⟩
  | cons c rest ih =>
    cases c with
    | none => simp [callsOfCandidates] at h
    | some cand =>
      simp only [callsOfCandidates] at h
      simp only [textOfCandidates]
      cases hct : cand.content with
      | none =>
        simp only [hct] at h
        exact ih _ h _
      | some content =>
        simp only [hct] at h
        cases hp : callsOfParts content.parts calls with
        | error e => simp [hp] at h
        | ok calls'' =>
          simp only [hp] at h
          obtain ⟨t, ht⟩ := textOfParts_ok_of_calls _ _ _ hp text
          simp only [ht]
          exact ih _ h _

theorem ExtractText_ok_of_calls (resp : Option GenerateContentResponse)
    (calls : List FunctionCall) (h : ExtractFunctionCalls resp = .ok calls) :
    ∃ text, ExtractText resp = .ok text := by
  cases resp with
  | none => simp [ExtractFunctionCalls] at h
  | some r => exact textOfCandidates_ok_of_calls _ _ _ h _

/-- C10: a query whose first response holds exactly one function call, whose tool
invocation succeeds and whose second response holds no function call makes exactly two
model queries and one tool invocation; the text displayed is `ExtractText` of the second
response; and the history gains, in order, the user entry whose part is the query text,
the model entry whose part holds the function call (its name and arguments), the user
entry whose part holds the function result for that name with the raw tool output text
(the concatenated text items of the tool result) under the key `result`, and, when the
answer text is not empty, the model entry whose part is that text. -/
theorem single_tool_round_trip (h0 : List Content) (input : String)
    (r1 r2 : Option GenerateContentResponse) (toolResp : Option CallToolResult)
    (c : FunctionCall)
    (hq : TrimSpace input ≠ "" ∧ TrimSpace input ≠ "quit" ∧ TrimSpace input ≠ "exit")
    (h1 : ExtractFunctionCalls r1 = .ok [c])
    (h2 : ExtractFunctionCalls r2 = .ok []) :
    ∃ answer toolText : String,
      ExtractText r2 = .ok answer ∧
        toolText =
          (match toolResp with
            | none => ""
            | some r =>
              String.join (r.content.filterMap fun item =>
                match item with
                | .text t => some t
                | .other => none)) ∧
        run { history := h0, pc := .awaitInput, trace := [] }
            [.line input false, .generated r1 false, .toolReturned toolResp false,
             .generated r2 false] =
          { history :=
              h0 ++
                [{ role := "user",
                   parts := [some { text := TrimSpace input,
                                    functionCall := none,
                                    functionResponse := none }] },
                 { role := "model",
                   parts := [some { text := "",
                                    functionCall := some { name := c.name, args := some c.arguments },
                                    functionResponse := none }] },
                 { role := "user",
                   parts := [some { text := "",
                                    functionCall := none,
                                    functionResponse :=
                                      some { name := c.name,
                                             response := .cons "result" (.str toolText) .nil } }] }] ++
                (if answer ≠ "" then
                  [{ role := "model",
                     parts := [some { text := answer,
                                      functionCall := none,
                                      functionResponse := none }] }]
                else []),
            pc := .awaitInput,
            trace :=
              [.queryModel
                 (h0 ++
                   [{ role := "user",
                      parts := [some { text := TrimSpace input,
                                       functionCall := none,
                                       functionResponse := none }] }]),
               .callTool c.name c.arguments,
               .queryModel
                 (h0 ++
                   [{ role := "user",
                      parts := [some { text := TrimSpace input,
                                       functionCall := none,
                                       functionResponse := none }] },
                    { role := "model",
                      parts := [some { text := "",
                                       functionCall :=
                                         some { name := c.name, args := some c.arguments },
                                       functionResponse := none }] },
                    { role := "user",
                      parts := [some { text := "",
                                       functionCall := none,
                                       functionResponse :=
                                         some { name := c.name,
                                                response :=
                                                  .cons "result" (.str toolText) .nil } }] }])] ++
                (if answer ≠ "" then [.display answer] else []) } := by
  obtain ⟨answer, ha⟩ := ExtractText_ok_of_calls r2 [] h2
  refine ⟨answer, _, ha, rfl, ?_⟩
  rw [← ExtractToolResult_eq]
  by_cases hempty : answer = ""
  · simp [run, step, hq.1, hq.2.1, hq.2.2, h1, h2, toolLoopHead, finishQuery, ha, hempty,
      userTextTurn, functionCallTurn, functionResultTurn]
  · simp [run, step, hq.1, hq.2.1, hq.2.2, h1, h2, toolLoopHead, finishQuery, ha, hempty,
      userTextTurn, functionCallTurn, functionResultTurn, modelTextTurn]

theorem single_tool_round_trip_witness :
    (TrimSpace " show team \n" ≠ "" ∧ TrimSpace " show team \n" ≠ "quit" ∧
        TrimSpace " show team \n" ≠ "exit") ∧
      ExtractFunctionCalls (some oneCallResponse)
        = .ok [{ name := "read_file", arguments := .nil }] ∧
      ExtractFunctionCalls (some textResponse) = .ok [] ∧
      ExtractText (some textResponse) = .ok "There is one file." ∧
      run { history := [], pc := .awaitInput, trace := [] }
          [.line " show team \n" false, .generated (some oneCallResponse) false,
           .toolReturned (some sampleToolResult) false,
           .generated (some textResponse) false] =
        { history :=
            [{ role := "user", parts := [some { text := "show team" }] },
             { role := "model",
               parts := [some { functionCall :=
                                  some { name := "read_file", args := some .nil } }] },
             { role := "user",
               parts := [some { functionResponse :=
                                  some { name := "read_file",
                                         response :=
                                           .cons "result" (.str "Files in :\na.txt") .nil } }] },
             { role := "model", parts := [some { text := "There is one file." }] }],
          pc := .awaitInput,
          trace :=
            [.queryModel [{ role := "user", parts := [some { text := "show team" }] }],
             .callTool "read_file" .nil,
             .queryModel
               [{ role := "user", parts := [some { text := "show team" }] },
                { role := "model",
                  parts := [some { functionCall :=
                                     some { name := "read_file", args := some .nil } }] },
                { role := "user",
                  parts := [some { functionResponse :=
                                     some { name := "read_file",
                                            response :=
                                              .cons "result" (.str "Files in :\na.txt")
                                                .nil } }] }],
             .display "There is one file."] } :=
  ⟨by decide, rfl, rfl, rfl,
    by
    obtain ⟨answer, toolText, ha, ht, hrun⟩ :=
      single_tool_round_trip [] " show team \n" (some oneCallResponse) (some textResponse)
        (some sampleToolResult) { name := "read_file", arguments := .nil }
        (by decide) rfl rfl
    have hans : answer = "There is one file." := by
      have htext : ExtractText (some textResponse) = .ok "There is one file." := rfl
      rw [htext] at ha
      exact (Except.ok.inj ha).symm
    have htt : toolText = "Files in :\na.txt" := by rw [ht]; rfl
    subst hans
    subst htt
    exact hrun⟩

/-! ## Schema bridge -/

/-- Induction over the entries of a `map[string]any`. -/
theorem anyMap_entries_induction {P : AnyMap → Prop} (hnil : P .nil)
    (hcons : ∀ k v tl, P tl → P (.cons k v tl)) : ∀ m, P m :=
  @AnyMap.rec (fun _ => True) (fun _ => True) P trivial (fun _ => trivial) (fun _ => trivial)
    (fun _ => trivial) (fun _ _ => trivial) (fun _ _ => trivial) trivial
    (fun _ _ _ _ => trivial) hnil (fun k v tl _ ih => hcons k v tl ih)

/-- Induction over the entries of a `[]any`. -/
theorem anyList_entries_induction {P : AnyList → Prop} (hnil : P .nil)
    (hcons : ∀ v tl, P tl → P (.cons v tl)) : ∀ l, P l :=
  @AnyList.rec (fun _ => True) P (fun _ => True) trivial (fun _ => trivial) (fun _ => trivial)
    (fun _ => trivial) (fun _ _ => trivial) (fun _ _ => trivial) hnil
    (fun v tl _ ih => hcons v tl ih) trivial (fun _ _ _ _ _ => trivial)

/-- Induction over the entries of a `map[string]*genai.Schema`. -/
theorem schemaMap_entries_induction {P : SchemaMap → Prop} (hnil : P .nil)
    (hcons : ∀ k v tl, P tl → P (.cons k v tl)) : ∀ m, P m :=
  @SchemaMap.rec (fun _ => True) P (fun _ _ _ _ => trivial) hnil
    (fun k v tl _ ih => hcons k v tl ih)

theorem propsField_cons (k : String) (v : AnyVal) (tl : AnyMap) :
    propsField (.cons k v tl) =
      if k = "properties" then
        match v with
        | .obj props => convertProps props .nil
        | _ => .nil
      else propsField tl := by
  cases v <;> simp [propsField]

theorem propsField_eq (m : AnyMap) : propsField m = convertProps (inputProperties m) .nil := by
  induction m using anyMap_entries_induction with
  | hnil => simp [propsField, inputProperties, AnyMap.get?, convertProps]
  | hcons k v tl ih =>
    rw [propsField_cons]
    by_cases hk : k = "properties"
    · rw [if_pos hk]
      cases v <;> simp [inputProperties, AnyMap.get?, convertProps, hk]
    · rw [if_neg hk, ih]
      simp only [inputProperties, AnyMap.get?, hk, if_false]

theorem convertProps_cons_obj (key : String) (pm tl : AnyMap) (acc : SchemaMap) :
    convertProps (.cons key (.obj pm) tl) acc
      = convertProps tl (acc.insert key (mapToSchema pm)) := by
  simp [convertProps, mapToSchema]

theorem convertProps_cons_skip (key : String) (val : AnyVal) (tl : AnyMap) (acc : SchemaMap)
    (h : ∀ pm, val ≠ AnyVal.obj pm) :
    convertProps (.cons key val tl) acc = convertProps tl acc := by
  cases val with
  | obj pm => exact absurd rfl (h pm)
  | null => simp [convertProps]
  | bool b => simp [convertProps]
  | num n => simp [convertProps]
  | str s => simp [convertProps]
  | arr xs => simp [convertProps]

theorem keys_insert (acc : SchemaMap) (k : String) (s : Schema) (x : String) :
    x ∈ (acc.insert k s).keys ↔ x = k ∨ x ∈ acc.keys := by
  induction acc using schemaMap_entries_induction with
  | hnil => simp [SchemaMap.insert, SchemaMap.keys]
  | hcons a v tl ih =>
    by_cases ha : a = k
    · subst ha
      simp [SchemaMap.insert, SchemaMap.keys]
    · simp only [SchemaMap.insert, ha, if_false, SchemaMap.keys, List.mem_cons, ih]
      tauto

theorem get_insert_self (acc : SchemaMap) (k : String) (s : Schema) :
    (acc.insert k s).get? k = some s := by
  induction acc using schemaMap_entries_induction with
  | hnil => simp [SchemaMap.insert, SchemaMap.get?]
  | hcons a v tl ih =>
    by_cases ha : a = k
    · subst ha
      simp [SchemaMap.insert, SchemaMap.get?]
    · simp [SchemaMap.insert, SchemaMap.get?, ha, ih]

theorem get_insert_ne (acc : SchemaMap) (k : String) (s : Schema) (x : String)
    (h : k ≠ x) : (acc.insert k s).get? x = acc.get? x := by
  induction acc using schemaMap_entries_induction with
  | hnil => simp [SchemaMap.insert, SchemaMap.get?, h]
  | hcons a v tl ih =>
    by_cases ha : a = k
    · subst ha
      simp [SchemaMap.insert, SchemaMap.get?, h]
    · by_cases hx : a = x
      · subst hx
        simp [SchemaMap.insert, SchemaMap.get?, ha]
      · simp [SchemaMap.insert, SchemaMap.get?, ha, hx, ih]

theorem keys_convertProps (props : AnyMap) :
    ∀ (acc : SchemaMap), (∀ k v, (k, v) ∈ props.entries → ∃ pm, v = AnyVal.obj pm) →
      ∀ x, x ∈ (convertProps props acc).keys ↔ x ∈ acc.keys ∨ x ∈ props.keys := by
  induction props using anyMap_entries_induction with
  | hnil => intro acc _ x; simp [convertProps, AnyMap.keys]
  | hcons key val tl ih =>
    intro acc h x
    obtain ⟨pm, rfl⟩ := h key val (by simp [AnyMap.entries])
    rw [convertProps_cons_obj,
      ih (acc.insert key (mapToSchema pm))
        (fun k v hkv => h k v (by simp [AnyMap.entries, hkv])) x,
      keys_insert]
    simp only [AnyMap.keys, List.mem_cons]
    tauto

theorem get_convertProps_notin (props : AnyMap) :
    ∀ (acc : SchemaMap) (x : String), x ∉ props.keys →
      (convertProps props acc).get? x = acc.get? x := by
  induction props using anyMap_entries_induction with
  | hnil => intro acc x _; simp [convertProps]
  | hcons key val tl ih =>
    intro acc x h
    simp only [AnyMap.keys, List.mem_cons, not_or] at h
    by_cases hv : ∃ pm, val = AnyVal.obj pm
    · obtain ⟨pm, rfl⟩ := hv
      rw [convertProps_cons_obj, ih _ x h.2, get_insert_ne _ _ _ _ (fun e => h.1 e.symm)]
    · rw [convertProps_cons_skip _ _ _ _ (fun pm e => hv ⟨pm, e⟩)]
      exact ih acc x h.2

theorem get_convertProps (props : AnyMap) :
    ∀ (acc : SchemaMap) (x : String) (pm : AnyMap), props.keys.Nodup →
      props.get? x = some (AnyVal.obj pm) →
      (convertProps props acc).get? x = some (mapToSchema pm) := by
  induction props using anyMap_entries_induction with
  | hnil => intro acc x pm _ h; simp [AnyMap.get?] at h
  | hcons key val tl ih =>
    intro acc x pm hnd h
    simp only [AnyMap.keys, List.nodup_cons] at hnd
    by_cases hk : key = x
    · subst hk
      simp only [AnyMap.get?, if_true, Option.some.injEq] at h
      subst h
      rw [convertProps_cons_obj, get_convertProps_notin tl _ key hnd.1, get_insert_self]
    · simp only [AnyMap.get?, hk, if_false] at h
      by_cases hv : ∃ pm', val = AnyVal.obj pm'
      · obtain ⟨pm', rfl⟩ := hv
        rw [convertProps_cons_obj]
        exact ih _ x pm hnd.2 h
      · rw [convertProps_cons_skip _ _ _ _ (fun pm' e => hv ⟨pm', e⟩)]
        exact ih acc x pm hnd.2 h

theorem get_mem_entries (props : AnyMap) (x : String) (v : AnyVal)
    (h : props.get? x = some v) : (x, v) ∈ props.entries := by
  induction props using anyMap_entries_induction with
  | hnil => simp [AnyMap.get?] at h
  | hcons key val tl ih =>
    by_cases hk : key = x
    · subst hk
      simp only [AnyMap.get?, if_true, Option.some.injEq] at h
      subst h
      simp [AnyMap.entries]
    · simp only [AnyMap.get?, hk, if_false] at h
      simp [AnyMap.entries, ih h]

theorem requiredStrings_map (required : AnyList) :
    ∀ (acc : List String), (∀ v ∈ required.toList, ∃ r, v = AnyVal.str r) →
      (requiredStrings required acc).map AnyVal.str
        = acc.map AnyVal.str ++ required.toList := by
  induction required using anyList_entries_induction with
  | hnil => intro acc _; simp [requiredStrings, AnyList.toList]
  | hcons v tl ih =>
    intro acc h
    obtain ⟨r, rfl⟩ := h v (by simp [AnyList.toList])
    simp only [requiredStrings,
      ih (acc ++ [r]) (fun w hw => h w (by simp [AnyList.toList, hw])), AnyList.toList]
    simp

theorem requiredField_map (m : AnyMap)
    (h : ∀ v ∈ (inputRequired m).toList, ∃ r, v = AnyVal.str r) :
    (requiredField m).map AnyVal.str = (inputRequired m).toList := by
  unfold requiredField
  unfold inputRequired at h ⊢
  cases hget : m.get? "required" with
  | none => simp [AnyList.toList]
  | some val =>
    cases val with
    | arr required =>
      simp only [hget] at h ⊢
      simpa using requiredStrings_map required [] h
    | null => simp [AnyList.toList]
    | bool b => simp [AnyList.toList]
    | num n => simp [AnyList.toList]
    | str t => simp [AnyList.toList]
    | obj pm => simp [AnyList.toList]

theorem mapToSchema_properties (m : AnyMap) :
    (mapToSchema m).properties = convertProps (inputProperties m) .nil := by
  simp only [mapToSchema, Schema.properties, propsField_eq]

/-- C9 (as amended): for a tree-shaped parameter schema in which, at every level, the
schema of every property is itself an object (with distinct property names and names as
required entries), `convertSchema`, that is `mapToSchema`, yields a schema with exactly
the same property names and the same required names at every nesting level. -/
theorem mapToSchema_preserves_names (m : AnyMap) (h : SchemaTree m) :
    convertSchema (.obj m) = mapToSchema m ∧ SameNames m (mapToSchema m) := by
  refine ⟨rfl, ?_⟩
  induction h with
  | node m distinct objects nested names ih =>
    refine SameNames.node m (mapToSchema m) ?_ ?_ ?_
    · intro k
      rw [mapToSchema_properties, keys_convertProps _ _ objects k]
      simp [SchemaMap.keys]
    · simpa [mapToSchema, Schema.required] using requiredField_map m names
    · intro k pm sub hget hsub
      rw [mapToSchema_properties, get_convertProps _ _ k pm distinct hget] at hsub
      have hsub' := Option.some.inj hsub
      subst hsub'
      exact ih k pm (get_mem_entries _ _ _ hget)

theorem schemaTree_leaf (m : AnyMap) (hp : inputProperties m = .nil)
    (hr : inputRequired m = .nil) : SchemaTree m := by
  refine SchemaTree.node m ?_ ?_ ?_ ?_
  · rw [hp]; simp [AnyMap.keys]
  · intro k v hkv; rw [hp] at hkv; simp [AnyMap.entries] at hkv
  · intro k pm hkv; rw [hp] at hkv; simp [AnyMap.entries] at hkv
  · intro v hv; rw [hr] at hv; simp [AnyList.toList] at hv

theorem optionsSchema_tree : SchemaTree optionsSchema := by
  have hp : inputProperties optionsSchema = .cons "recursive" (.obj booleanSchema) .nil := rfl
  have hr : inputRequired optionsSchema = .cons (.str "recursive") .nil := rfl
  refine SchemaTree.node _ ?_ ?_ ?_ ?_
  · rw [hp]; simp [AnyMap.keys]
  · intro k v hkv
    rw [hp] at hkv
    simp only [AnyMap.entries, List.mem_singleton, Prod.mk.injEq] at hkv
    exact ⟨_, hkv.2⟩
  · intro k pm hkv
    rw [hp] at hkv
    simp only [AnyMap.entries, List.mem_singleton, Prod.mk.injEq, AnyVal.obj.injEq] at hkv
    rw [hkv.2]
    exact schemaTree_leaf _ rfl rfl
  · intro v hv
    rw [hr] at hv
    simp only [AnyList.toList, List.mem_singleton] at hv
    exact ⟨_, hv⟩

theorem sampleSchema_tree : SchemaTree sampleSchema := by
  have hp : inputProperties sampleSchema
      = .cons "path" (.obj stringSchema) (.cons "options" (.obj optionsSchema) .nil) := rfl
  have hr : inputRequired sampleSchema = .cons (.str "path") .nil := rfl
  refine SchemaTree.node _ ?_ ?_ ?_ ?_
  · rw [hp]; simp [AnyMap.keys]
  · intro k v hkv
    rw [hp] at hkv
    simp only [AnyMap.entries, List.mem_cons, Prod.mk.injEq, List.mem_singleton,
      List.not_mem_nil, or_false] at hkv
    rcases hkv with h | h
    · exact ⟨_, h.2⟩
    · exact ⟨_, h.2⟩
  · intro k pm hkv
    rw [hp] at hkv
    simp only [AnyMap.entries, List.mem_cons, Prod.mk.injEq, AnyVal.obj.injEq,
      List.mem_singleton, List.not_mem_nil, or_false] at hkv
    rcases hkv with h | h
    · rw [h.2]; exact schemaTree_leaf _ rfl rfl
    · rw [h.2]; exact optionsSchema_tree
  · intro v hv
    rw [hr] at hv
    simp only [AnyList.toList, List.mem_singleton] at hv
    exact ⟨_, hv⟩

theorem mapToSchema_preserves_names_witness :
    SchemaTree sampleSchema ∧
      convertSchema (.obj sampleSchema) = mapToSchema sampleSchema ∧
      SameNames sampleSchema (mapToSchema sampleSchema) :=
  ⟨sampleSchema_tree, mapToSchema_preserves_names sampleSchema sampleSchema_tree⟩

/-- C9 (as stated) fails: the schema has a nested object property (`options`), a required
set and the property `extra` with the boolean schema `true`; it is finite and
tree-shaped, its property names are `path`, `options`, `extra`, and the translation has
`path` and `options` only: the name `extra` is dropped. -/
theorem mapToSchema_loses_boolean_property :
    (inputProperties looseSchema).keys = ["path", "options", "extra"] ∧
      (inputRequired looseSchema).toList = [AnyVal.str "path"] ∧
      (convertSchema (.obj looseSchema)).properties.keys = ["path", "options"] ∧
      ¬ SameNames looseSchema (convertSchema (.obj looseSchema)) := by
  refine ⟨by decide, rfl, by decide, ?_⟩
  intro h
  cases h with
  | node _ _ hprops _ _ =>
    have hmem := (hprops "extra").2 (by decide)
    revert hmem
    decide

/-- The translation of the sample schema, evaluated: names and required entries at both
levels. -/
theorem mapToSchema_sampleSchema :
    (mapToSchema sampleSchema).properties.keys = ["path", "options"] ∧
      (mapToSchema sampleSchema).required = ["path"] ∧
      ((mapToSchema sampleSchema).properties.get? "options").map
          (fun s => (s.properties.keys, s.required)) = some (["recursive"], ["recursive"]) := by
  decide

/-- A property whose value is not a map (here the boolean schema `true`) is dropped by
the translation: outside tree-shaped schemas names are not preserved. -/
theorem mapToSchema_drops_non_map_property :
    (mapToSchema
        (.cons "properties" (.obj (.cons "anything" (.bool true) .nil)) .nil)).properties.keys
      = [] := by
  decide

end GoMcp
